import Mathlib

set_option maxHeartbeats 1000000

/-!
Shallow embedding of `src/python/src/nnabla/parameter.py`.

The module keeps a process-wide scope tree: nested `OrderedDict`s whose
values are either nested scopes or parameter `Variable`s, plus a mutable
"current scope" reference.  We model:

* a `Variable` instance by an index (`vid`) into a heap `vars : List Var`;
  reference identity of Python `Variable` objects is identity of this index;
* the underlying data array (`NdArray`) of a variable by an index
  (`dataRef`) into a second heap `bufs : List (List Int)`; `unlinked()`
  aliases share the `dataRef` (writing `var.d` is seen by all holders);
  numeric contents are modelled as `Int` values (the claims never perform
  arithmetic on the stored numbers);
* the scope tree by an insertion-ordered association list (`OrderedDict`);
* the "current scope" reference by the path of names leading from the root
  to the current node (the source's `current_scope` global is always a node
  of the tree reachable from `root_scope` by the names entered so far);
* a '/'-separated path string by the list of its segments wherever the
  source immediately splits it (`name.split('/')`); the record names stored
  in files stay joined strings and are split by `splitSlash` on load,
  mirroring `str.split('/')`;
* a Python function call by a function `PState → Res α` where `Res` carries
  the final state both on normal return (`ok`) and on a propagating
  exception / failed `assert` (`err`).  `@contextmanager parameter_scope`
  has no `try/finally` around its `yield`, so in the `err` case the lines
  after the `yield` (restoring the previous current scope) are skipped;
  the model reflects exactly that.
-/

namespace NnablaParam

/-- Attributes of one `nn.Variable` instance: shape, `need_grad` flag, and
the identity of the shared underlying data array. -/
structure Var where
  shape : List Nat
  needGrad : Bool
  dataRef : Nat
deriving DecidableEq

/-- One slot of a scope `OrderedDict`: a nested scope or a parameter
(`Variable`, by heap index). -/
inductive Entry : Type where
  | sub : List (String × Entry) → Entry
  | par : Nat → Entry

/-- A scope node: an insertion-ordered association list, as an `OrderedDict`. -/
abbrev Node := List (String × Entry)

/-- The process state of the module: the root scope tree, the path of the
current scope, and the two heaps backing `Variable` instances and their
shared data arrays. -/
structure PState where
  root : Node
  cur : List String
  vars : List Var
  bufs : List (List Int)

/-- Result of running a modelled Python call: normal return or a propagating
exception, in both cases together with the state the call left behind. -/
inductive Res (α : Type) : Type where
  | ok : α → PState → Res α
  | err : String → PState → Res α

/-- `OrderedDict` lookup (first, hence unique, binding of the key). -/
def odGet (l : Node) (k : String) : Option Entry :=
  match l with
  | [] => none
  | (k', v) :: rest => if k' = k then some v else odGet rest k

/-- `OrderedDict` assignment: replace in place if the key is present
(keeping its position), else append at the end. -/
def odSet (l : Node) (k : String) (v : Entry) : Node :=
  match l with
  | [] => [(k, v)]
  | (k', v') :: rest => if k' = k then (k, v) :: rest else (k', v') :: odSet rest k v

/-- Descend from a node along a path of scope names. -/
def lookupNode (n : Node) : List String → Option Node
  | [] => some n
  | k :: ks =>
      match odGet n k with
      | some (.sub m) => lookupNode m ks
      | _ => none

/-- Apply `f` to the node at the given path (no change if the path does not
lead to a scope node). -/
def updateNode (n : Node) : List String → (Node → Node) → Node
  | [], f => f n
  | k :: ks, f =>
      match odGet n k with
      | some (.sub m) => odSet n k (.sub (updateNode m ks f))
      | _ => n

/-- The node the `current_scope` global points at. -/
def curNode (s : PState) : Node := (lookupNode s.root s.cur).getD []

/-- Pure read of the parameter variable stored at a path below a node. -/
def findVar : Node → List String → Option Nat
  | _, [] => none
  | n, [k] =>
      match odGet n k with
      | some (.par v) => some v
      | _ => none
  | n, k :: rest =>
      match odGet n k with
      | some (.sub t) => findVar t rest
      | _ => none

/-- str.split('/') on the character list, with the accumulator holding the
current segment reversed. -/
def splitSlashAux : List Char → List Char → List String
  | acc, [] => [String.mk acc.reverse]
  | acc, c :: rest =>
      if c = '/' then String.mk acc.reverse :: splitSlashAux [] rest
      else splitSlashAux (c :: acc) rest

/-- Python `key.split('/')`. -/
def splitSlash (s : String) : List String := splitSlashAux [] s.data

/-- Path accumulation of `get_parameters`:
`'/'.join([path, k]) if path else k`. -/
def joinPath (path k : String) : String := if path = "" then k else path ++ "/" ++ k

/-!  The operations of the module, in source order. -/

/-- The state after the part of `parameter_scope` before the `yield`:
`current_scope[name] = tmp; current_scope = tmp` (with `tmp` the existing
subscope, or a fresh empty `OrderedDict` when `name` is absent). -/
def psEnter (s : PState) (name : String) (tmp : Node) : PState :=
  { s with
    root := updateNode s.root s.cur (fun m => odSet m name (.sub tmp)),
    cur := s.cur ++ [name] }

/-- `parameter_scope(name)` used as `with parameter_scope(name): body`.
There is no `try/finally` around the `yield`, so when the body raises, the
restoring assignment `current_scope = prev_scope` after the `yield` is
skipped and the exception propagates with the current scope still pointing
into the entered subscope. -/
def parameter_scope {α : Type} (name : String) (body : PState → Res α) (s : PState) : Res α :=
  match odGet (curNode s) name with
  | some (.par _) => .err ("assert isinstance(tmp, dict)") s
  | some (.sub t) =>
      match body (psEnter s name t) with
      | .ok a s2 => .ok a { s2 with cur := s.cur }
      | .err msg s2 => .err msg s2
  | none =>
      match body (psEnter s name []) with
      | .ok a s2 => .ok a { s2 with cur := s.cur }
      | .err msg s2 => .err msg s2

/-- `get_parameter(key)` on the already-split list of path segments
(`key.split('/')` never yields `[]`; that case is padded with "not found").
For a multi-segment path the source enters the first segment's scope and
recurses on `'/'.join(names[1:])`, which re-splits to exactly the tail. -/
def get_parameter : List String → PState → Res (Option Nat)
  | [], s => .ok none s
  | [k], s =>
      match odGet (curNode s) k with
      | none => .ok none s
      | some (.par v) => .ok (some v) s
      | some (.sub _) => .err ("assert isinstance(param, nn.Variable)") s
  | n :: rest, s => parameter_scope n (get_parameter rest) s

/-- `set_parameter(key, param)` on the split path segments. -/
def set_parameter (v : Nat) : List String → PState → Res Unit
  | [], s => .ok () s
  | [k], s =>
      .ok () { s with root := updateNode s.root s.cur (fun m => odSet m k (.par v)) }
  | n :: rest, s => parameter_scope n (set_parameter v rest) s

/-- Product of a shape's dimensions (size of the dense buffer). -/
def shapeProd (l : List Nat) : Nat := l.foldr (fun a b => a * b) 1

/-- The initial data of a fresh `nn.Variable`: the initializer's output if
one was given, else the engine's default buffer (modelled as zeros). -/
def bufInit (init : Option (List Nat → List Int)) (shape : List Nat) : List Int :=
  match init with
  | some f => f shape
  | none => List.replicate (shapeProd shape) 0

/-- `get_parameter_or_create(name, shape, initializer, need_grad)` on the
split path segments.  A fresh `nn.Variable(shape, need_grad)`'s data is
modelled as zeros when no initializer is given (the source leaves it at the
engine's default).  When a variable exists with a different `need_grad`,
the source returns `param.unlinked()` with `need_grad` reassigned: a fresh
instance sharing the data array, not stored back into the tree. -/
def get_parameter_or_create (shape : List Nat) (init : Option (List Nat → List Int))
    (needGrad : Bool) : List String → PState → Res Nat
  | [], s => .err ("empty parameter name") s
  | [k], s =>
      match get_parameter [k] s with
      | .err m s' => .err m s'
      | .ok none s' =>
          let vid := s'.vars.length
          let dref := s'.bufs.length
          let s2 := { s' with
            vars := s'.vars ++ [⟨shape, needGrad, dref⟩],
            bufs := s'.bufs ++ [bufInit init shape] }
          match set_parameter vid [k] s2 with
          | .ok _ s3 => .ok vid s3
          | .err m s3 => .err m s3
      | .ok (some v) s' =>
          match s'.vars.get? v with
          | none => .err ("invalid variable") s'
          | some var =>
              if var.shape = shape then
                if needGrad ≠ var.needGrad then
                  .ok s'.vars.length
                    { s' with vars := s'.vars ++ [⟨var.shape, needGrad, var.dataRef⟩] }
                else .ok v s'
              else .err ("assert param.shape == tuple(shape)") s'
  | n :: rest, s =>
      parameter_scope n (get_parameter_or_create shape init needGrad rest) s

/-- `v.need_grad` read through the heap. -/
def needGradOf (vars : List Var) (v : Nat) : Bool :=
  match vars.get? v with
  | some var => var.needGrad
  | none => false

/-- `params[key] = v` on the accumulating `OrderedDict` of `get_parameters`. -/
def insertOD (m : List (String × Nat)) (k : String) (v : Nat) : List (String × Nat) :=
  match m with
  | [] => [(k, v)]
  | (k', v') :: rest => if k' = k then (k, v) :: rest else (k', v') :: insertOD rest k v

/-- The loop body of `get_parameters`: iterate the current scope's items in
insertion order; recurse into subscopes under `parameter_scope(k)`; collect
parameters passing the `grad_only` filter.  The iterated item list is the
snapshot of the current scope's entries, which the loop itself never
structurally changes (entering an existing subscope reassigns an existing
key to its own value). -/
def get_parameters_go (g : Bool) :
    List (String × Entry) → String → List (String × Nat) → PState → Res (List (String × Nat))
  | [], _, acc, s => .ok acc s
  | (k, .par v) :: rest, path, acc, s =>
      let acc' := if !g || needGradOf s.vars v then insertOD acc (joinPath path k) v else acc
      get_parameters_go g rest path acc' s
  | (k, .sub t) :: rest, path, acc, s =>
      match parameter_scope k (get_parameters_go g t (joinPath path k) acc) s with
      | .ok acc' s' => get_parameters_go g rest path acc' s'
      | .err m s' => .err m s'

/-- `get_parameters(grad_only)` from the current scope. -/
def get_parameters (g : Bool) (s : PState) : Res (List (String × Nat)) :=
  get_parameters_go g (curNode s) "" [] s

/-- `clear_parameters()`: delete every key of the current scope. -/
def clear_parameters (s : PState) : Res Unit :=
  .ok () { s with root := updateNode s.root s.cur (fun _ => []) }

/-!  Serialization: the flat protobuf message and the hierarchical (hdf5)
container, with file contents modelled as the decoded record lists. -/

/-- One record of the flat message: full '/'-joined path, dimension list,
row-major flattened data, `need_grad`. -/
structure PbParam where
  variable_name : String
  shape : List Nat
  data : List Int
  need_grad : Bool
deriving DecidableEq

/-- One dataset of the hierarchical container: dataset path, shape, data,
and the `need_grad` / `index` attributes (`index` read back with
`attrs.get('index', None)`). -/
structure H5Entry where
  key : String
  shape : List Nat
  data : List Int
  need_grad : Bool
  index : Option Nat
deriving DecidableEq

/-- A written parameter file, by format. -/
inductive SavedFile : Type where
  | h5 : List H5Entry → SavedFile
  | pb : List PbParam → SavedFile
deriving DecidableEq

/-- Read a shared data buffer. -/
def bufOf (bufs : List (List Int)) (i : Nat) : List Int := (bufs.get? i).getD []

/-- Build one flat-message record from a `(path, Variable)` pair:
`variable_name`, `shape.dim`, flattened `data`, `need_grad`. -/
def mkRec (vars : List Var) (bufs : List (List Int)) (kv : String × Nat) : PbParam :=
  match vars.get? kv.2 with
  | some var => ⟨kv.1, var.shape, bufOf bufs var.dataRef, var.needGrad⟩
  | none => ⟨kv.1, [], [], false⟩

/-- Python `enumerate`, from a starting index. -/
def enumFrom {α : Type} (i : Nat) : List α → List (Nat × α)
  | [] => []
  | x :: xs => (i, x) :: enumFrom (i + 1) xs

/-- Build one container dataset from an enumerated `(i, (path, Variable))`:
data under the path, with `need_grad` and emission-order `index` attributes. -/
def mkH5Entry (vars : List Var) (bufs : List (List Int)) (iv : Nat × (String × Nat)) : H5Entry :=
  match vars.get? iv.2.2 with
  | some var => ⟨iv.2.1, var.shape, bufOf bufs var.dataRef, var.needGrad, some iv.1⟩
  | none => ⟨iv.2.1, [], [], false, some iv.1⟩

/-- Last index of a character in a list, if any. -/
def rlast (cs : List Char) (c : Char) : Option Nat :=
  match cs.reverse.findIdx? (fun x => x == c) with
  | none => none
  | some i => some (cs.length - 1 - i)

/-- The extension part of `os.path.splitext(p)` (CPython `genericpath`):
the suffix from the last '.' of the basename, unless every character of the
basename before it is itself a '.'. -/
def splitextExt (p : String) : String :=
  let cs := p.data
  let start : Nat :=
    match rlast cs '/' with
    | some i => i + 1
    | none => 0
  match rlast cs '.' with
  | none => ""
  | some d =>
      if start ≤ d then
        if ((cs.drop start).take (d - start)).any (fun x => x != '.') then
          String.mk (cs.drop d)
        else ""
      else ""

/-- `save_parameters(path)`: compute `get_parameters(grad_only=False)`, then
dispatch on the extension; the `.h5` branch recomputes the parameter list
inside the opened file block; an unrecognized extension hits
`logger.critical(...); assert False` before writing anything. -/
def save_parameters (path : String) (s : PState) : Res SavedFile :=
  let ext := splitextExt path
  match get_parameters false s with
  | .err m s' => .err m s'
  | .ok params s' =>
      if ext = ".h5" then
        match get_parameters false s' with
        | .err m s'' => .err m s''
        | .ok params2 s'' =>
            .ok (.h5 ((enumFrom 0 params2).map (mkH5Entry s''.vars s''.bufs))) s''
      else if ext = ".protobuf" then
        .ok (.pb (params.map (mkRec s'.vars s'.bufs))) s'
      else .err ("Only supported hdf5 or protobuf.") s'

/-- `var.d = values` (or the elementwise cast-assignment): overwrite the
variable's shared data buffer. -/
def setVarData (s : PState) (vid : Nat) (d : List Int) : PState :=
  match s.vars.get? vid with
  | some var => { s with bufs := s.bufs.set var.dataRef d }
  | none => s

/-- `var.need_grad = g`. -/
def setVarNeedGrad (s : PState) (vid : Nat) (g : Bool) : PState :=
  match s.vars.get? vid with
  | some var => { s with vars := s.vars.set vid ⟨var.shape, g, var.dataRef⟩ }
  | none => s

/-- The per-record loop of the `.protobuf` branch of `load_parameters`:
`get_parameter_or_create(variable_name, shape.dim)` (default
`need_grad=True`), `numpy.reshape` of the record data (which fails when the
element count does not match), `var.d = ...`, then
`var.need_grad = parameter.need_grad`. -/
def loadPbLoop : List PbParam → PState → Res Unit
  | [], s => .ok () s
  | r :: rest, s =>
      match get_parameter_or_create r.shape none true (splitSlash r.variable_name) s with
      | .err m s' => .err m s'
      | .ok vid s' =>
          if r.data.length = shapeProd r.shape then
            loadPbLoop rest (setVarNeedGrad (setVarData s' vid r.data) vid r.need_grad)
          else .err ("cannot reshape") s'

/-- `hd[key]` of the modelled container file. -/
def h5find (file : List H5Entry) (k : String) : Option H5Entry :=
  match file with
  | [] => none
  | e :: rest => if e.key = k then some e else h5find rest k

/-- Strict lexicographic order on character lists (Python 2 `str` compare). -/
def charsLt : List Char → List Char → Bool
  | [], [] => false
  | [], _ :: _ => true
  | _ :: _, [] => false
  | a :: as, b :: bs => a < b || (a == b && charsLt as bs)

/-- Python 2 comparison of the `(index, name)` key tuples built by the
`.h5` loader; a missing index (`None`) sorts before every integer. -/
def keyLt (a b : Option Nat × String) : Bool :=
  match a.1, b.1 with
  | none, none => charsLt a.2.data b.2.data
  | none, some _ => true
  | some _, none => false
  | some i, some j => i < j || (i == j && charsLt a.2.data b.2.data)

/-- Stable insertion of one element into a sorted list (keep going past
elements not greater than it). -/
def insSorted {α : Type} (lt : α → α → Bool) (x : α) : List α → List α
  | [] => [x]
  | y :: ys => if lt x y then x :: y :: ys else y :: insSorted lt x ys

/-- Python `sorted`, as a stable insertion sort. -/
def isort {α : Type} (lt : α → α → Bool) : List α → List α
  | [] => []
  | x :: xs => insSorted lt x (isort lt xs)

/-- The per-key loop of the `.h5` branch of `load_parameters`: look the
dataset up by its path, `get_parameter_or_create(key, ds.shape,
need_grad=ds.attrs['need_grad'])`, cast-assign the dataset's data into the
variable's buffer, and append the corresponding record to `proto`. -/
def loadH5Loop (file : List H5Entry) :
    List (Option Nat × String) → List PbParam → PState → Res (List PbParam)
  | [], proto, s => .ok proto s
  | (_, key) :: restKeys, proto, s =>
      match h5find file key with
      | none => .err ("KeyError") s
      | some e =>
          match get_parameter_or_create e.shape none e.need_grad (splitSlash key) s with
          | .err m s' => .err m s'
          | .ok vid s' =>
              if e.data.length = shapeProd e.shape then
                let s2 := setVarData s' vid e.data
                match s2.vars.get? vid with
                | none => .err ("invalid variable") s2
                | some var =>
                    loadH5Loop file restKeys
                      (proto ++ [⟨key, var.shape, bufOf s2.bufs var.dataRef, var.needGrad⟩]) s2
              else .err ("broadcast error") s'

/-- `load_parameters(path, proto)`: dispatch on the extension.  `.h5` reads
all dataset keys, sorts them by the `(index, name)` tuples and loads in that
order; `.protobuf` merges the file's records into `proto` (repeated fields
append) and loads every record of the merged message; any other extension
falls through both branches and just returns `proto`. -/
def load_parameters (path : String) (file : SavedFile) (proto : Option (List PbParam))
    (s : PState) : Res (List PbParam) :=
  let ext := splitextExt path
  let proto0 := proto.getD []
  if ext = ".h5" then
    match file with
    | .h5 entries =>
        let keys := entries.map (fun e => (e.index, e.key))
        loadH5Loop entries (isort keyLt keys) proto0 s
    | .pb _ => .err ("unable to open file") s
  else if ext = ".protobuf" then
    match file with
    | .pb recs =>
        let merged := proto0 ++ recs
        match loadPbLoop merged s with
        | .ok _ s' => .ok merged s'
        | .err m s' => .err m s'
    | .h5 _ => .err ("error parsing message") s
  else .ok proto0 s

/-- The save / clear / load experiment of claim C4, returning the final
state when every step succeeds. -/
def roundTrip (path : String) (s : PState) : Option PState :=
  match save_parameters path s with
  | .err _ _ => none
  | .ok f s' =>
      match clear_parameters s' with
      | .err _ _ => none
      | .ok _ s1 =>
          match load_parameters path f none s1 with
          | .ok _ s2 => some s2
          | .err _ _ => none

/-- The observable parameter set of a state: every parameter under the
current scope with its '/'-joined path, shape, data values and `need_grad`
flag (the content compared by the round-trip claim). -/
def observe (s : PState) : List PbParam :=
  match get_parameters false s with
  | .ok prs _ => prs.map (mkRec s.vars s.bufs)
  | .err _ _ => []

/-!  Well-formedness of states, and auxiliary descriptions of the
operations' effects used by the theorems. -/

/-- A scope key as produced by splitting a normal path: non-empty and
'/'-free. -/
def keyOk (k : String) : Bool := k != "" && k.data.all (fun c => c != '/')

mutual

/-- Well-formed entry: subscopes recursively well-formed. -/
def wfEntry : Entry → Bool
  | .par _ => true
  | .sub t => wfNode t

/-- Well-formed scope node: keys admissible and pairwise distinct, entries
recursively well-formed. -/
def wfNode : Node → Bool
  | [] => true
  | (k, e) :: rest =>
      keyOk k && !(rest.any (fun p => p.1 == k)) && wfEntry e && wfNode rest

end

mutual

/-- All parameter indices of an entry are below the heap size. -/
def vidsOkEntry (n : Nat) : Entry → Bool
  | .par v => v < n
  | .sub t => vidsOkNode n t

/-- All parameter indices of a node are below the heap size. -/
def vidsOkNode (n : Nat) : Node → Bool
  | [] => true
  | (_, e) :: rest => vidsOkEntry n e && vidsOkNode n rest

end

/-- Every variable's data buffer exists and matches its shape's size. -/
def varsOk (vars : List Var) (bufs : List (List Int)) : Bool :=
  vars.all (fun v => v.dataRef < bufs.length && (bufOf bufs v.dataRef).length = shapeProd v.shape)

/-- Well-formed state: the current-scope path is valid and the scope tree
under it is well-formed with resolvable variables. -/
def wfSt (s : PState) : Bool :=
  (lookupNode s.root s.cur).isSome && wfNode (curNode s) &&
    vidsOkNode s.vars.length (curNode s) && varsOk s.vars s.bufs

/-- Modelled from the spec (§4.2, claim C6): the depth-first traversal that
visits each scope node's entries in insertion order, recurses into
subscopes positionally, builds '/'-joined paths, and keeps each parameter
unless `grad_only` is set and its `need_grad` is false. -/
def specTraversal (vars : List Var) (g : Bool) : Node → String → List (String × Nat)
  | [], _ => []
  | (k, .par v) :: rest, path =>
      (if !g || needGradOf vars v then [(joinPath path k, v)] else []) ++
        specTraversal vars g rest path
  | (k, .sub t) :: rest, path =>
      specTraversal vars g t (joinPath path k) ++ specTraversal vars g rest path

/-- A path is free below a node: the descent crosses only existing
subscopes or absent keys, and the leaf key is absent (the
`get_parameter_or_create` creation case). -/
def freshLeafB : Node → List String → Bool
  | _, [] => false
  | n, [k] => (odGet n k).isNone
  | n, k :: rest =>
      match odGet n k with
      | none => true
      | some (.sub t) => freshLeafB t rest
      | some (.par _) => false

/-- The tree effect of creating a parameter at a free path: create missing
intermediate scopes and place the parameter at the leaf. -/
def insertPath (v : Nat) : Node → List String → Node
  | n, [] => n
  | n, [k] => odSet n k (.par v)
  | n, k :: rest =>
      let t : Node :=
        match odGet n k with
        | some (.sub t) => t
        | _ => []
      odSet n k (.sub (insertPath v t rest))

/-- The chain of empty scopes `get_parameter` creates below a missing first
segment: one empty scope per remaining segment except the last. -/
def emptyChain : List String → Node
  | [] => []
  | [_] => []
  | k :: rest => [(k, .sub (emptyChain rest))]

/-- The descent of `get_parameter` hits no parameter at a non-leaf segment
and no subscope at the leaf (so it completes without an assertion error). -/
def cleanLookupB : Node → List String → Bool
  | _, [] => true
  | n, [k] =>
      match odGet n k with
      | some (.sub _) => false
      | _ => true
  | n, k :: rest =>
      match odGet n k with
      | some (.par _) => false
      | some (.sub t) => cleanLookupB t rest
      | none => true

/-- The tree effect of `get_parameter` on a multi-segment path: create the
missing intermediate scopes crossed by the descent (and nothing at the
leaf segment). -/
def fillPath : Node → List String → Node
  | n, [] => n
  | n, [_] => n
  | n, k :: rest =>
      match odGet n k with
      | some (.sub t) => odSet n k (.sub (fillPath t rest))
      | some (.par _) => n
      | none => odSet n k (.sub (emptyChain rest))

mutual

/-- Number of parameters in an entry. -/
def countParamsE : Entry → Nat
  | .par _ => 1
  | .sub t => countParamsN t

/-- Number of parameters in a node. -/
def countParamsN : Node → Nat
  | [] => 0
  | (_, e) :: rest => countParamsE e + countParamsN rest

end

/-- The node rebuilt by reloading: parameters renumbered depth-first from
`b`, and subscopes holding no parameter dropped (no record mentions them, so
loading never recreates them). -/
def mirrorN (b : Nat) : Node → Node
  | [] => []
  | (k, .par _) :: rest => (k, .par b) :: mirrorN (b + 1) rest
  | (k, .sub t) :: rest =>
      if countParamsN t = 0 then mirrorN b rest
      else (k, .sub (mirrorN b t)) :: mirrorN (b + countParamsN t) rest

/-- The fresh variables appended by loading a record list, in order: the
i-th record creates a variable of its shape and final `need_grad`, backed
by the i-th fresh buffer. -/
def newVars (dbase : Nat) : List PbParam → List Var
  | [] => []
  | r :: rest => ⟨r.shape, r.need_grad, dbase⟩ :: newVars (dbase + 1) rest

/-- The records `save_parameters` derives from a scope node: the depth-first
flattening with resolved shape, data and `need_grad`. -/
def recsOfN (vars : List Var) (bufs : List (List Int)) : Node → String → List PbParam
  | [], _ => []
  | (k, .par v) :: rest, pfx =>
      mkRec vars bufs (joinPath pfx k, v) :: recsOfN vars bufs rest pfx
  | (k, .sub t) :: rest, pfx =>
      recsOfN vars bufs t (joinPath pfx k) ++ recsOfN vars bufs rest pfx

/-- Pure description of loading a record list into a node: each record's
path must be free, then the parameter is inserted with the next fresh
variable index and the record's data appended as a fresh buffer. -/
def rebuildRecs : List PbParam → Node → List Var → List (List Int) →
    Option (Node × List Var × List (List Int))
  | [], n, vs, bs => some (n, vs, bs)
  | r :: rest, n, vs, bs =>
      if freshLeafB n (splitSlash r.variable_name) &&
          (r.data.length == shapeProd r.shape) then
        rebuildRecs rest (insertPath vs.length n (splitSlash r.variable_name))
          (vs ++ [⟨r.shape, r.need_grad, bs.length⟩]) (bs ++ [r.data])
      else none

/-- `isUnder cur q`: the path `q` starts with the path `cur` (so the slot
`q` addresses lies inside the scope at `cur`). -/
def isUnder : List String → List String → Bool
  | [], _ => true
  | _ :: _, [] => false
  | a :: as, b :: bs => a == b && isUnder as bs

/-- A sequence of nested scope entries:
`with parameter_scope(n1): with parameter_scope(n2): ... body`. -/
def nestScopes {α : Type} : List String → (PState → Res α) → PState → Res α
  | [], body => body
  | k :: ks, body => parameter_scope k (nestScopes ks body)

/-- The pure value computed by the `get_parameters` loop on a snapshot of
the scope tree (the loop leaves the state unchanged; see
`get_parameters_go_pure`). -/
def collectPure (vars : List Var) (g : Bool) :
    List (String × Entry) → String → List (String × Nat) → List (String × Nat)
  | [], _, acc => acc
  | (k, .par v) :: rest, path, acc =>
      collectPure vars g rest path
        (if !g || needGradOf vars v then insertOD acc (joinPath path k) v else acc)
  | (k, .sub t) :: rest, path, acc =>
      collectPure vars g rest path (collectPure vars g t (joinPath path k) acc)

mutual

/-- Recursively duplicate-free keys inside an entry. -/
def nodupEntry : Entry → Bool
  | .par _ => true
  | .sub t => nodupNode t

/-- Recursively duplicate-free keys of a node (every binding retrievable by
`odGet`), which always holds of the `OrderedDict` trees the source builds. -/
def nodupNode : Node → Bool
  | [] => true
  | (k, e) :: rest =>
      !(rest.any (fun p => p.1 == k)) && nodupEntry e && nodupNode rest

end

/-- Accumulated '/'-joining of path segments, exactly as the `path`
argument of `get_parameters` accumulates. -/
def joinSegsFrom (path : String) (p : List String) : String :=
  List.foldl joinPath path p

/-- The segment paths of the parameters a traversal visits, in traversal
order. -/
def segPathsN (g : Bool) (vars : List Var) : Node → List (List String)
  | [] => []
  | (k, .par v) :: rest =>
      (if !g || needGradOf vars v then [[k]] else []) ++ segPathsN g vars rest
  | (k, .sub t) :: rest =>
      (segPathsN g vars t).map (fun p => k :: p) ++ segPathsN g vars rest

/-- Prefix a record's '/'-joined name with a scope name. -/
def prefRec (k : String) (r : PbParam) : PbParam :=
  { r with variable_name := k ++ "/" ++ r.variable_name }

/-- The flat record carried by a container dataset (same payload fields). -/
def toPb (e : H5Entry) : PbParam := ⟨e.key, e.shape, e.data, e.need_grad⟩

/-!  Lemmas about the ordered-dictionary primitives. -/

theorem odGet_odSet_self {l : Node} {k : String} {v : Entry} (h : odGet l k = some v) :
    odSet l k v = l := by
  induction l with
  | nil => simp [odGet] at h
  | cons hd tl ih =>
      obtain ⟨k', v'⟩ := hd
      by_cases hk : k' = k
      · subst hk
        simp [odGet] at h
        simp [odSet, h]
      · simp [odGet, hk] at h
        simp [odSet, hk, ih h]

theorem odGet_odSet_eq (l : Node) (k : String) (v : Entry) :
    odGet (odSet l k v) k = some v := by
  induction l with
  | nil => simp [odGet, odSet]
  | cons hd tl ih =>
      obtain ⟨k', v'⟩ := hd
      by_cases hk : k' = k
      · subst hk
        simp [odGet, odSet]
      · simp [odGet, odSet, hk, ih]

theorem odGet_odSet_ne {l : Node} {k k' : String} (v : Entry) (h : k' ≠ k) :
    odGet (odSet l k v) k' = odGet l k' := by
  have hne : k ≠ k' := fun hh => h hh.symm
  induction l with
  | nil => simp [odGet, odSet, hne]
  | cons hd tl ih =>
      obtain ⟨k0, v0⟩ := hd
      by_cases hk : k0 = k
      · subst hk
        simp [odGet, odSet, hne]
      · simp only [odSet, if_neg hk]
        by_cases hk' : k0 = k'
        · simp [odGet, hk']
        · simp [odGet, hk', ih]

theorem odSet_odSet (l : Node) (k : String) (a b : Entry) :
    odSet (odSet l k a) k b = odSet l k b := by
  induction l with
  | nil => simp [odSet]
  | cons hd tl ih =>
      obtain ⟨k0, v0⟩ := hd
      by_cases hk : k0 = k
      · simp [odSet, hk]
      · simp [odSet, hk, ih]

theorem odSet_absent {l : Node} {k : String} (v : Entry) (h : odGet l k = none) :
    odSet l k v = l ++ [(k, v)] := by
  induction l with
  | nil => simp [odSet]
  | cons hd tl ih =>
      obtain ⟨k0, v0⟩ := hd
      by_cases hk : k0 = k
      · simp [odGet, hk] at h
      · simp [odGet, hk] at h
        simp [odSet, hk, ih h]

/-!  Lemmas about path lookup and update in the scope tree. -/

theorem lookupNode_append (n : Node) (p q : List String) :
    lookupNode n (p ++ q) = (lookupNode n p).bind (fun m => lookupNode m q) := by
  induction p generalizing n with
  | nil => simp [lookupNode]
  | cons k ks ih =>
      simp only [List.cons_append, lookupNode]
      cases hk : odGet n k with
      | none => simp
      | some e =>
          cases e with
          | par v => simp
          | sub m => simpa using ih m

theorem updateNode_append (n : Node) (p q : List String) (g : Node → Node) :
    updateNode n (p ++ q) g = updateNode n p (fun m => updateNode m q g) := by
  induction p generalizing n with
  | nil => simp [updateNode]
  | cons k ks ih =>
      simp only [List.cons_append, updateNode]
      cases hk : odGet n k with
      | none => simp
      | some e =>
          cases e with
          | par v => simp
          | sub m => simp [ih m]

theorem lookupNode_updateNode_self {n : Node} {p : List String} {m : Node}
    (f : Node → Node) (h : lookupNode n p = some m) :
    lookupNode (updateNode n p f) p = some (f m) := by
  induction p generalizing n with
  | nil =>
      simp [lookupNode] at h
      simp [lookupNode, updateNode, h]
  | cons k ks ih =>
      simp only [lookupNode] at h
      cases hk : odGet n k with
      | none => simp [hk] at h
      | some e =>
          cases e with
          | par v => simp [hk] at h
          | sub t =>
              simp only [hk] at h
              simp [updateNode, hk, lookupNode, odGet_odSet_eq, ih h]

theorem updateNode_noop {n : Node} {p : List String} {m : Node} {f : Node → Node}
    (h : lookupNode n p = some m) (hf : f m = m) : updateNode n p f = n := by
  induction p generalizing n with
  | nil =>
      simp [lookupNode] at h
      simp [updateNode, h, hf]
  | cons k ks ih =>
      simp only [lookupNode] at h
      cases hk : odGet n k with
      | none => simp [hk] at h
      | some e =>
          cases e with
          | par v => simp [hk] at h
          | sub t =>
              simp only [hk] at h
              simp [updateNode, hk, ih h, odGet_odSet_self hk]

theorem updateNode_invalid {n : Node} {p : List String} (f : Node → Node)
    (h : lookupNode n p = none) : updateNode n p f = n := by
  induction p generalizing n with
  | nil => simp [lookupNode] at h
  | cons k ks ih =>
      simp only [lookupNode] at h
      cases hk : odGet n k with
      | none => simp [updateNode, hk]
      | some e =>
          cases e with
          | par v => simp [updateNode, hk]
          | sub t =>
              simp only [hk] at h
              simp [updateNode, hk, ih h, odGet_odSet_self hk]

theorem findVar_updateNode {p : List String} (f : Node → Node) :
    ∀ {n : Node} {q : List String}, isUnder p q = false →
      findVar (updateNode n p f) q = findVar n q := by
  induction p with
  | nil => intro n q h; simp [isUnder] at h
  | cons k ks ih =>
      intro n q h
      cases hk : odGet n k with
      | none => simp [updateNode, hk]
      | some e =>
          cases e with
          | par v => simp [updateNode, hk]
          | sub t =>
              simp only [updateNode, hk]
              match q, h with
              | [], _ => simp [findVar]
              | [k'], h =>
                  by_cases hkk : k' = k
                  · subst hkk
                    simp [findVar, odGet_odSet_eq, hk]
                  · simp [findVar, odGet_odSet_ne _ hkk]
              | k' :: q' :: q'', h =>
                  by_cases hkk : k' = k
                  · subst hkk
                    simp only [isUnder, beq_self_eq_true, Bool.true_and] at h
                    have hrec := @ih t (q' :: q'') h
                    simp [findVar, odGet_odSet_eq, hk, hrec]
                  · simp [findVar, odGet_odSet_ne _ hkk]

theorem updateNode_id (n : Node) (p : List String) :
    updateNode n p (fun m => m) = n := by
  induction p generalizing n with
  | nil => simp [updateNode]
  | cons k ks ih =>
      cases hk : odGet n k with
      | none => simp [updateNode, hk]
      | some e =>
          cases e with
          | par v => simp [updateNode, hk]
          | sub t => simp [updateNode, hk, ih, odGet_odSet_self hk]

theorem updateNode_comp (n : Node) (p : List String) (f g : Node → Node) :
    updateNode (updateNode n p f) p g = updateNode n p (fun m => g (f m)) := by
  induction p generalizing n with
  | nil => simp [updateNode]
  | cons k ks ih =>
      cases hk : odGet n k with
      | none => simp [updateNode, hk]
      | some e =>
          cases e with
          | par v => simp [updateNode, hk]
          | sub t => simp [updateNode, hk, odGet_odSet_eq, odSet_odSet, ih]

theorem updateNode_congr {n : Node} {p : List String} {m : Node} {f g : Node → Node}
    (h : lookupNode n p = some m) (hfg : f m = g m) :
    updateNode n p f = updateNode n p g := by
  induction p generalizing n with
  | nil =>
      simp [lookupNode] at h
      simp [updateNode, h, hfg]
  | cons k ks ih =>
      simp only [lookupNode] at h
      cases hk : odGet n k with
      | none => simp [hk] at h
      | some e =>
          cases e with
          | par v => simp [hk] at h
          | sub t =>
              simp only [hk] at h
              simp [updateNode, hk, ih h]

/-!  Behaviour of `parameter_scope`. -/

theorem parameter_scope_ok_cur {α : Type} {k : String} {body : PState → Res α} {s : PState}
    {a : α} {s' : PState} (h : parameter_scope k body s = .ok a s') : s'.cur = s.cur := by
  unfold parameter_scope at h
  split at h
  · exact absurd h (by simp)
  · split at h
    · cases h; rfl
    · cases h
  · split at h
    · cases h; rfl
    · cases h

theorem get_parameter_emptyScope :
    ∀ (names : List String) {s : PState}, lookupNode s.root s.cur = some [] →
      get_parameter names s =
        .ok none { s with root := updateNode s.root s.cur (fun _ => emptyChain names) }
  | [], s, h => by
      have hid : updateNode s.root s.cur (fun _ => emptyChain []) = s.root :=
        updateNode_noop h (by simp [emptyChain])
      simp [get_parameter, hid]
  | [k], s, h => by
      have hcn : curNode s = [] := by simp [curNode, h]
      have hid : updateNode s.root s.cur (fun _ => emptyChain [k]) = s.root :=
        updateNode_noop h (by simp [emptyChain])
      simp [get_parameter, hcn, odGet, hid]
  | k :: r :: rest, s, h => by
      have hcn : curNode s = [] := by simp [curNode, h]
      have hlk : lookupNode (psEnter s k []).root (psEnter s k []).cur = some [] := by
        show lookupNode (updateNode s.root s.cur _) (s.cur ++ [k]) = some []
        rw [lookupNode_append, lookupNode_updateNode_self _ h]
        simp [lookupNode, odGet_odSet_eq]
      have ih := get_parameter_emptyScope (r :: rest) hlk
      have hroot : updateNode (psEnter s k []).root (psEnter s k []).cur
            (fun _ => emptyChain (r :: rest)) =
          updateNode s.root s.cur (fun _ => emptyChain (k :: r :: rest)) := by
        show updateNode (updateNode s.root s.cur _) (s.cur ++ [k]) _ = _
        rw [updateNode_append, updateNode_comp]
        refine updateNode_congr h ?_
        simp [updateNode, odGet_odSet_eq, odSet_odSet, emptyChain, odSet, odGet]
      show parameter_scope k (get_parameter (r :: rest)) s = _
      simp only [parameter_scope, hcn, odGet]
      rw [ih]
      simp only [psEnter] at hroot ⊢
      simp [hroot]

theorem get_parameter_clean :
    ∀ (names : List String) {s : PState} {N : Node},
      lookupNode s.root s.cur = some N → cleanLookupB N names = true →
      get_parameter names s =
        .ok (findVar N names)
          { s with root := updateNode s.root s.cur (fun m => fillPath m names) }
  | [], s, N, h, _ => by
      have hid : updateNode s.root s.cur (fun m => fillPath m []) = s.root := by
        rw [show (fun m => fillPath m []) = fun (m : Node) => m from rfl]
        exact updateNode_id _ _
      simp [get_parameter, findVar, hid]
  | [k], s, N, h, hclean => by
      have hcn : curNode s = N := by simp [curNode, h]
      have hid : updateNode s.root s.cur (fun m => fillPath m [k]) = s.root := by
        rw [show (fun m => fillPath m [k]) = fun (m : Node) => m from ?_]
        · exact updateNode_id _ _
        · funext m; simp [fillPath]
      cases hk : odGet N k with
      | none => simp [get_parameter, hcn, hk, findVar, hid]
      | some e =>
          cases e with
          | par v => simp [get_parameter, hcn, hk, findVar, hid]
          | sub t => simp [cleanLookupB, hk] at hclean
  | k :: r :: rest, s, N, h, hclean => by
      have hcn : curNode s = N := by simp [curNode, h]
      cases hk : odGet N k with
      | none =>
          have hlk : lookupNode (psEnter s k []).root (psEnter s k []).cur = some [] := by
            show lookupNode (updateNode s.root s.cur _) (s.cur ++ [k]) = some []
            rw [lookupNode_append, lookupNode_updateNode_self _ h]
            simp [lookupNode, odGet_odSet_eq]
          have ih := get_parameter_emptyScope (r :: rest) hlk
          have hroot : updateNode (psEnter s k []).root (psEnter s k []).cur
                (fun _ => emptyChain (r :: rest)) =
              updateNode s.root s.cur (fun m => fillPath m (k :: r :: rest)) := by
            show updateNode (updateNode s.root s.cur _) (s.cur ++ [k]) _ = _
            rw [updateNode_append, updateNode_comp]
            refine updateNode_congr h ?_
            simp [updateNode, odGet_odSet_eq, odSet_odSet, fillPath, hk]
          show parameter_scope k (get_parameter (r :: rest)) s = _
          simp only [parameter_scope, hcn, hk]
          rw [ih]
          simp only [psEnter] at hroot ⊢
          simp [hroot, findVar, hk]
      | some e =>
          cases e with
          | par v => simp [cleanLookupB, hk] at hclean
          | sub t =>
              have hclean' : cleanLookupB t (r :: rest) = true := by
                simpa [cleanLookupB, hk] using hclean
              have hnoop : updateNode s.root s.cur (fun m => odSet m k (.sub t)) = s.root :=
                updateNode_noop h (odGet_odSet_self hk)
              have hlk : lookupNode (psEnter s k t).root (psEnter s k t).cur = some t := by
                show lookupNode (updateNode s.root s.cur _) (s.cur ++ [k]) = some t
                rw [hnoop, lookupNode_append, h]
                simp [lookupNode, hk]
              have ih := get_parameter_clean (r :: rest) hlk hclean'
              have hroot : updateNode (psEnter s k t).root (psEnter s k t).cur
                    (fun m => fillPath m (r :: rest)) =
                  updateNode s.root s.cur (fun m => fillPath m (k :: r :: rest)) := by
                show updateNode (updateNode s.root s.cur _) (s.cur ++ [k]) _ = _
                rw [updateNode_append, updateNode_comp]
                refine updateNode_congr h ?_
                simp [updateNode, odGet_odSet_self hk, hk, fillPath]
              show parameter_scope k (get_parameter (r :: rest)) s = _
              simp only [parameter_scope, hcn, hk]
              rw [ih]
              simp only [psEnter] at hroot ⊢
              simp [hroot, findVar, hk]

/-!  Behaviour of `get_parameter_or_create`. -/

theorem gpoc_found_eq :
    ∀ (names : List String) {s : PState} {N : Node} {w : Nat} {var : Var}
      (shape : List Nat) (init : Option (List Nat → List Int)) (g : Bool),
      lookupNode s.root s.cur = some N → findVar N names = some w →
      s.vars.get? w = some var → var.shape = shape → g = var.needGrad →
      get_parameter_or_create shape init g names s = .ok w s
  | [], _, _, _, _, _, _, _, _, hfind, _, _, _ => by
      simp [findVar] at hfind
  | [k], s, N, w, var, shape, init, g, hcur, hfind, hvar, hshape, hg => by
      have hcn : curNode s = N := by simp [curNode, hcur]
      cases hk : odGet N k with
      | none => simp [findVar, hk] at hfind
      | some e =>
          cases e with
          | sub t => simp [findVar, hk] at hfind
          | par v =>
              have hv : v = w := by simpa [findVar, hk] using hfind
              subst hv
              subst hg
              rw [List.get?_eq_getElem?] at hvar
              simp [get_parameter_or_create, get_parameter, hcn, hk, hvar, hshape]
  | k :: r :: rest, s, N, w, var, shape, init, g, hcur, hfind, hvar, hshape, hg => by
      have hcn : curNode s = N := by simp [curNode, hcur]
      cases hk : odGet N k with
      | none => simp [findVar, hk] at hfind
      | some e =>
          cases e with
          | par v => simp [findVar, hk] at hfind
          | sub t =>
              have hfind' : findVar t (r :: rest) = some w := by
                simpa [findVar, hk] using hfind
              have hnoop : updateNode s.root s.cur (fun m => odSet m k (.sub t)) = s.root :=
                updateNode_noop hcur (odGet_odSet_self hk)
              have hlk : lookupNode (psEnter s k t).root (psEnter s k t).cur = some t := by
                show lookupNode (updateNode s.root s.cur _) (s.cur ++ [k]) = some t
                rw [hnoop, lookupNode_append, hcur]
                simp [lookupNode, hk]
              have ih := gpoc_found_eq (r :: rest) shape init g hlk hfind' hvar hshape hg
              show parameter_scope k (get_parameter_or_create shape init g (r :: rest)) s = _
              simp only [parameter_scope, hcn, hk]
              rw [ih]
              simp only [psEnter]
              rw [hnoop]

theorem gpoc_found_alias :
    ∀ (names : List String) {s : PState} {N : Node} {w : Nat} {var : Var}
      (shape : List Nat) (init : Option (List Nat → List Int)) (g : Bool),
      lookupNode s.root s.cur = some N → findVar N names = some w →
      s.vars.get? w = some var → var.shape = shape → g ≠ var.needGrad →
      get_parameter_or_create shape init g names s =
        .ok s.vars.length { s with vars := s.vars ++ [⟨var.shape, g, var.dataRef⟩] }
  | [], _, _, _, _, _, _, _, _, hfind, _, _, _ => by
      simp [findVar] at hfind
  | [k], s, N, w, var, shape, init, g, hcur, hfind, hvar, hshape, hg => by
      have hcn : curNode s = N := by simp [curNode, hcur]
      cases hk : odGet N k with
      | none => simp [findVar, hk] at hfind
      | some e =>
          cases e with
          | sub t => simp [findVar, hk] at hfind
          | par v =>
              have hv : v = w := by simpa [findVar, hk] using hfind
              subst hv
              rw [List.get?_eq_getElem?] at hvar
              simp [get_parameter_or_create, get_parameter, hcn, hk, hvar, hshape, hg]
  | k :: r :: rest, s, N, w, var, shape, init, g, hcur, hfind, hvar, hshape, hg => by
      have hcn : curNode s = N := by simp [curNode, hcur]
      cases hk : odGet N k with
      | none => simp [findVar, hk] at hfind
      | some e =>
          cases e with
          | par v => simp [findVar, hk] at hfind
          | sub t =>
              have hfind' : findVar t (r :: rest) = some w := by
                simpa [findVar, hk] using hfind
              have hnoop : updateNode s.root s.cur (fun m => odSet m k (.sub t)) = s.root :=
                updateNode_noop hcur (odGet_odSet_self hk)
              have hlk : lookupNode (psEnter s k t).root (psEnter s k t).cur = some t := by
                show lookupNode (updateNode s.root s.cur _) (s.cur ++ [k]) = some t
                rw [hnoop, lookupNode_append, hcur]
                simp [lookupNode, hk]
              have ih := gpoc_found_alias (r :: rest) shape init g hlk hfind' hvar hshape hg
              show parameter_scope k (get_parameter_or_create shape init g (r :: rest)) s = _
              simp only [parameter_scope, hcn, hk]
              rw [ih]
              simp only [psEnter]
              rw [hnoop]

theorem gpoc_found_mismatch :
    ∀ (names : List String) {s : PState} {N : Node} {w : Nat} {var : Var}
      (shape : List Nat) (init : Option (List Nat → List Int)) (g : Bool),
      lookupNode s.root s.cur = some N → findVar N names = some w →
      s.vars.get? w = some var → var.shape ≠ shape →
      ∃ s', get_parameter_or_create shape init g names s =
        .err ("assert param.shape == tuple(shape)") s'
  | [], _, _, _, _, _, _, _, _, hfind, _, _ => by
      simp [findVar] at hfind
  | [k], s, N, w, var, shape, init, g, hcur, hfind, hvar, hshape => by
      have hcn : curNode s = N := by simp [curNode, hcur]
      cases hk : odGet N k with
      | none => simp [findVar, hk] at hfind
      | some e =>
          cases e with
          | sub t => simp [findVar, hk] at hfind
          | par v =>
              have hv : v = w := by simpa [findVar, hk] using hfind
              subst hv
              refine ⟨s, ?_⟩
              rw [List.get?_eq_getElem?] at hvar
              simp [get_parameter_or_create, get_parameter, hcn, hk, hvar, hshape]
  | k :: r :: rest, s, N, w, var, shape, init, g, hcur, hfind, hvar, hshape => by
      have hcn : curNode s = N := by simp [curNode, hcur]
      cases hk : odGet N k with
      | none => simp [findVar, hk] at hfind
      | some e =>
          cases e with
          | par v => simp [findVar, hk] at hfind
          | sub t =>
              have hfind' : findVar t (r :: rest) = some w := by
                simpa [findVar, hk] using hfind
              have hnoop : updateNode s.root s.cur (fun m => odSet m k (.sub t)) = s.root :=
                updateNode_noop hcur (odGet_odSet_self hk)
              have hlk : lookupNode (psEnter s k t).root (psEnter s k t).cur = some t := by
                show lookupNode (updateNode s.root s.cur _) (s.cur ++ [k]) = some t
                rw [hnoop, lookupNode_append, hcur]
                simp [lookupNode, hk]
              obtain ⟨s'', ih⟩ :=
                gpoc_found_mismatch (r :: rest) shape init g hlk hfind' hvar hshape
              refine ⟨s'', ?_⟩
              show parameter_scope k (get_parameter_or_create shape init g (r :: rest)) s = _
              simp only [parameter_scope, hcn, hk]
              rw [ih]

theorem gpoc_create :
    ∀ (names : List String) {s : PState} {N : Node}
      (shape : List Nat) (init : Option (List Nat → List Int)) (g : Bool),
      lookupNode s.root s.cur = some N → freshLeafB N names = true →
      get_parameter_or_create shape init g names s =
        .ok s.vars.length
          { s with
            root := updateNode s.root s.cur (fun m => insertPath s.vars.length m names),
            vars := s.vars ++ [⟨shape, g, s.bufs.length⟩],
            bufs := s.bufs ++ [bufInit init shape] }
  | [], _, _, _, _, _, _, hfresh => by simp [freshLeafB] at hfresh
  | [k], s, N, shape, init, g, hcur, hfresh => by
      have hcn : curNode s = N := by simp [curNode, hcur]
      have hk : odGet N k = none := by
        simpa [freshLeafB, Option.isNone_iff_eq_none] using hfresh
      have hupd : updateNode s.root s.cur (fun m => odSet m k (.par s.vars.length)) =
          updateNode s.root s.cur (fun m => insertPath s.vars.length m [k]) := by
        refine updateNode_congr hcur ?_
        simp [insertPath]
      simp [get_parameter_or_create, get_parameter, set_parameter, hcn, hk]
      rw [← hupd]
  | k :: r :: rest, s, N, shape, init, g, hcur, hfresh => by
      have hcn : curNode s = N := by simp [curNode, hcur]
      cases hk : odGet N k with
      | some e =>
          cases e with
          | par v => simp [freshLeafB, hk] at hfresh
          | sub t =>
              have hfresh' : freshLeafB t (r :: rest) = true := by
                simpa [freshLeafB, hk] using hfresh
              have hnoop : updateNode s.root s.cur (fun m => odSet m k (.sub t)) = s.root :=
                updateNode_noop hcur (odGet_odSet_self hk)
              have hlk : lookupNode (psEnter s k t).root (psEnter s k t).cur = some t := by
                show lookupNode (updateNode s.root s.cur _) (s.cur ++ [k]) = some t
                rw [hnoop, lookupNode_append, hcur]
                simp [lookupNode, hk]
              have ih := gpoc_create (r :: rest) shape init g hlk hfresh'
              have hroot : updateNode (psEnter s k t).root (psEnter s k t).cur
                    (fun m => insertPath s.vars.length m (r :: rest)) =
                  updateNode s.root s.cur
                    (fun m => insertPath s.vars.length m (k :: r :: rest)) := by
                show updateNode (updateNode s.root s.cur _) (s.cur ++ [k]) _ = _
                rw [updateNode_append, updateNode_comp]
                refine updateNode_congr hcur ?_
                simp [updateNode, odGet_odSet_self hk, hk, insertPath]
              show parameter_scope k
                  (get_parameter_or_create shape init g (r :: rest)) s = _
              simp only [parameter_scope, hcn, hk]
              rw [ih]
              simp only [psEnter] at hroot ⊢
              simp [hroot]
      | none =>
          have hlk : lookupNode (psEnter s k []).root (psEnter s k []).cur = some [] := by
            show lookupNode (updateNode s.root s.cur _) (s.cur ++ [k]) = some []
            rw [lookupNode_append, lookupNode_updateNode_self _ hcur]
            simp [lookupNode, odGet_odSet_eq]
          have hfresh' : freshLeafB ([] : Node) (r :: rest) = true := by
            cases rest <;> simp [freshLeafB, odGet]
          have ih := gpoc_create (r :: rest) shape init g hlk hfresh'
          have hroot : updateNode (psEnter s k []).root (psEnter s k []).cur
                (fun m => insertPath s.vars.length m (r :: rest)) =
              updateNode s.root s.cur
                (fun m => insertPath s.vars.length m (k :: r :: rest)) := by
            show updateNode (updateNode s.root s.cur _) (s.cur ++ [k]) _ = _
            rw [updateNode_append, updateNode_comp]
            refine updateNode_congr hcur ?_
            simp [updateNode, odGet_odSet_eq, odSet_odSet, odGet, insertPath, hk]
          show parameter_scope k (get_parameter_or_create shape init g (r :: rest)) s = _
          simp only [parameter_scope, hcn, hk]
          rw [ih]
          simp only [psEnter] at hroot ⊢
          simp [hroot]

theorem findVar_insertPath (v : Nat) :
    ∀ (names : List String) (N : Node), freshLeafB N names = true →
      findVar (insertPath v N names) names = some v
  | [], _, h => by simp [freshLeafB] at h
  | [k], N, _ => by simp [findVar, insertPath, odGet_odSet_eq]
  | k :: r :: rest, N, h => by
      cases hk : odGet N k with
      | none =>
          have hfresh' : freshLeafB ([] : Node) (r :: rest) = true := by
            cases rest <;> simp [freshLeafB, odGet]
          have ih := findVar_insertPath v (r :: rest) [] hfresh'
          simp [insertPath, hk, findVar, odGet_odSet_eq, ih]
      | some e =>
          cases e with
          | par p => simp [freshLeafB, hk] at h
          | sub t =>
              have ht : freshLeafB t (r :: rest) = true := by
                simpa [freshLeafB, hk] using h
              have ih := findVar_insertPath v (r :: rest) t ht
              simp [insertPath, hk, findVar, odGet_odSet_eq, ih]

theorem set_concat {α : Type} (l : List α) (x y : α) :
    (l ++ [x]).set l.length y = l ++ [y] := by
  induction l with
  | nil => simp
  | cons a as ih => simp [List.set, ih]

theorem setVarData_eq {s : PState} {vid : Nat} {var : Var}
    (h : s.vars.get? vid = some var) (d : List Int) :
    setVarData s vid d = { s with bufs := s.bufs.set var.dataRef d } := by
  simp only [setVarData, h]

theorem setVarNeedGrad_eq {s : PState} {vid : Nat} {var : Var}
    (h : s.vars.get? vid = some var) (g : Bool) :
    setVarNeedGrad s vid g = { s with vars := s.vars.set vid ⟨var.shape, g, var.dataRef⟩ } := by
  simp only [setVarNeedGrad, h]

/-!  The `get_parameters` loop is a pure function of the tree snapshot. -/

theorem odGet_mem_nodup :
    ∀ {t : Node} {k : String} {e : Entry}, nodupNode t = true → (k, e) ∈ t →
      odGet t k = some e := by
  intro t
  induction t with
  | nil => intro k e _ hmem; simp at hmem
  | cons hd rest ih =>
      intro k e hnd hmem
      obtain ⟨k0, e0⟩ := hd
      simp only [nodupNode, Bool.and_eq_true, Bool.not_eq_true'] at hnd
      obtain ⟨⟨hany, _⟩, hrest⟩ := hnd
      rcases List.mem_cons.mp hmem with heq | hmem'
      · simp only [Prod.mk.injEq] at heq
        obtain ⟨rfl, rfl⟩ := heq
        simp [odGet]
      · by_cases hkk : k0 = k
        · exfalso
          subst hkk
          have : rest.any (fun p => p.1 == k0) = true :=
            List.any_eq_true.mpr ⟨(k0, e), hmem', by simp⟩
          rw [this] at hany
          cases hany
        · simp [odGet, hkk, ih hrest hmem']

theorem nodup_mem_entry :
    ∀ {t : Node} {ke : String × Entry}, nodupNode t = true → ke ∈ t →
      nodupEntry ke.2 = true := by
  intro t
  induction t with
  | nil => intro ke _ hmem; simp at hmem
  | cons hd rest ih =>
      intro ke hnd hmem
      obtain ⟨k0, e0⟩ := hd
      simp only [nodupNode, Bool.and_eq_true] at hnd
      obtain ⟨⟨_, hne0⟩, hrest⟩ := hnd
      rcases List.mem_cons.mp hmem with heq | hmem'
      · subst heq; exact hne0
      · exact ih hrest hmem'

theorem get_parameters_go_pure (g : Bool) :
    ∀ (items : List (String × Entry)) (path : String) (acc : List (String × Nat))
      {s : PState},
      (∀ ke ∈ items, odGet (curNode s) ke.1 = some ke.2) →
      (∀ ke ∈ items, nodupEntry ke.2 = true) →
      get_parameters_go g items path acc s =
        .ok (collectPure s.vars g items path acc) s
  | [], _, _, _, _, _ => by simp [get_parameters_go, collectPure]
  | (k, .par v) :: rest, path, acc, s, hget, hne => by
      have ihr := get_parameters_go_pure g rest path
        (if !g || needGradOf s.vars v then insertOD acc (joinPath path k) v else acc)
        (fun ke hke => hget ke (List.mem_cons_of_mem _ hke))
        (fun ke hke => hne ke (List.mem_cons_of_mem _ hke))
      simp only [get_parameters_go, collectPure]
      exact ihr
  | (k, .sub t) :: rest, path, acc, s, hget, hne => by
      have hk : odGet (curNode s) k = some (.sub t) :=
        hget (k, .sub t) (List.mem_cons_self _ _)
      have hcur : lookupNode s.root s.cur = some (curNode s) := by
        cases hl : lookupNode s.root s.cur with
        | some n => simp [curNode, hl]
        | none =>
            exfalso
            simp [curNode, hl, odGet] at hk
      have hnoop : updateNode s.root s.cur (fun m => odSet m k (.sub t)) = s.root :=
        updateNode_noop hcur (odGet_odSet_self hk)
      have hlk : lookupNode (psEnter s k t).root (psEnter s k t).cur = some t := by
        show lookupNode (updateNode s.root s.cur _) (s.cur ++ [k]) = some t
        rw [hnoop, lookupNode_append, hcur]
        simp [lookupNode, hk]
      have hndt : nodupNode t = true := by
        have := hne (k, .sub t) (List.mem_cons_self _ _)
        simpa [nodupEntry] using this
      have hcn1 : curNode (psEnter s k t) = t := by simp [curNode, hlk]
      have ihi := get_parameters_go_pure g t (joinPath path k) acc
        (fun ke hke => by rw [hcn1]; exact odGet_mem_nodup hndt hke)
        (fun ke hke => nodup_mem_entry hndt hke)
      have hseq : ({ psEnter s k t with cur := s.cur } : PState) = s := by
        simp [psEnter, hnoop]
      have ihr := get_parameters_go_pure g rest path
        (collectPure s.vars g t (joinPath path k) acc)
        (fun ke hke => hget ke (List.mem_cons_of_mem _ hke))
        (fun ke hke => hne ke (List.mem_cons_of_mem _ hke))
      simp only [get_parameters_go, collectPure]
      rw [show parameter_scope k (get_parameters_go g t (joinPath path k) acc) s =
          .ok (collectPure s.vars g t (joinPath path k) acc) s from ?_]
      · exact ihr
      · simp only [parameter_scope, hk]
        rw [ihi]
        show Res.ok (collectPure (psEnter s k t).vars g t (joinPath path k) acc)
            ({ psEnter s k t with cur := s.cur }) =
          Res.ok (collectPure s.vars g t (joinPath path k) acc) s
        rw [hseq]
        rfl

theorem get_parameters_pure {s : PState} (g : Bool)
    (hnd : nodupNode (curNode s) = true) :
    get_parameters g s = .ok (collectPure s.vars g (curNode s) "" []) s :=
  get_parameters_go_pure g (curNode s) "" []
    (fun _ hke => odGet_mem_nodup hnd hke) (fun _ hke => nodup_mem_entry hnd hke)

/-!  Splitting and joining '/'-separated paths. -/

theorem splitSlashAux_no_slash :
    ∀ (cs acc : List Char), ('/' : Char) ∉ cs →
      splitSlashAux acc cs = [String.mk (acc.reverse ++ cs)]
  | [], acc, _ => by simp [splitSlashAux]
  | c :: rest, acc, h => by
      have hc : c ≠ '/' := fun hh => h (hh ▸ List.mem_cons_self _ _)
      have hr : ('/' : Char) ∉ rest := fun hh => h (List.mem_cons_of_mem _ hh)
      have ih := splitSlashAux_no_slash rest (c :: acc) hr
      simp [splitSlashAux, hc, ih]

theorem splitSlash_no_slash {s : String} (h : ('/' : Char) ∉ s.data) :
    splitSlash s = [s] := by
  have h1 := splitSlashAux_no_slash s.data [] h
  simpa [splitSlash] using h1

theorem splitSlashAux_concat :
    ∀ (ad acc bd : List Char),
      splitSlashAux acc (ad ++ '/' :: bd) = splitSlashAux acc ad ++ splitSlashAux [] bd
  | [], acc, bd => by simp [splitSlashAux]
  | c :: rest, acc, bd => by
      by_cases hc : c = '/'
      · subst hc
        simp [splitSlashAux, splitSlashAux_concat rest [] bd]
      · simp [splitSlashAux, hc, splitSlashAux_concat rest (c :: acc) bd]

theorem splitSlash_concat (a b : String) :
    splitSlash (a ++ "/" ++ b) = splitSlash a ++ splitSlash b := by
  show splitSlashAux [] (a ++ "/" ++ b).data = _
  rw [String.data_append, String.data_append]
  show splitSlashAux [] (a.data ++ ['/'] ++ b.data) = _
  rw [List.append_assoc]
  exact splitSlashAux_concat a.data [] b.data

theorem keyOk_ne_empty {k : String} (h : keyOk k = true) : k ≠ "" := by
  have h1 := (Bool.and_eq_true .. ▸ h).1
  exact (bne_iff_ne ..).mp h1

theorem keyOk_no_slash {k : String} (h : keyOk k = true) : ('/' : Char) ∉ k.data := by
  have h2 := (Bool.and_eq_true .. ▸ h).2
  intro hmem
  have := List.all_eq_true.mp h2 '/' hmem
  simp at this

theorem string_concat_ne_empty (s x : String) : s ++ "/" ++ x ≠ "" := by
  intro hh
  have hdata : (s ++ "/" ++ x).data = [] := by rw [hh]
  rw [String.data_append, String.data_append] at hdata
  simp at hdata

theorem splitSlash_foldl :
    ∀ (p : List String) (s : String), s ≠ "" →
      (∀ seg ∈ p, keyOk seg = true) →
      splitSlash (List.foldl joinPath s p) = splitSlash s ++ p
  | [], s, _, _ => by simp
  | x :: rest, s, hs, hseg => by
      have hx := hseg x (List.mem_cons_self _ _)
      have hjoin : joinPath s x = s ++ "/" ++ x := by simp [joinPath, hs]
      have hne2 : joinPath s x ≠ "" := by
        rw [hjoin]
        exact string_concat_ne_empty s x
      have ih := splitSlash_foldl rest (joinPath s x) hne2
        (fun seg hsg => hseg seg (List.mem_cons_of_mem _ hsg))
      rw [List.foldl_cons, ih, hjoin, splitSlash_concat,
        splitSlash_no_slash (keyOk_no_slash hx)]
      simp

theorem splitSlash_joinSegsFrom_root {p : List String} (hp : p ≠ [])
    (hseg : ∀ seg ∈ p, keyOk seg = true) :
    splitSlash (joinSegsFrom ("") p) = p := by
  cases p with
  | nil => exact absurd rfl hp
  | cons k rest =>
      have hk := hseg k (List.mem_cons_self _ _)
      show splitSlash (List.foldl joinPath "" (k :: rest)) = _
      rw [List.foldl_cons]
      rw [show joinPath "" k = k by simp [joinPath]]
      rw [splitSlash_foldl rest k (keyOk_ne_empty hk)
        (fun seg h => hseg seg (List.mem_cons_of_mem _ h))]
      rw [splitSlash_no_slash (keyOk_no_slash hk)]
      rfl

/-!  The traversal's '/'-joined keys, through the segment paths. -/

theorem joinSegsFrom_cons (path k : String) (p : List String) :
    joinSegsFrom path (k :: p) = joinSegsFrom (joinPath path k) p := by
  simp [joinSegsFrom]

theorem specTraversal_keys (vars : List Var) (g : Bool) :
    ∀ (t : Node) (path : String),
      (specTraversal vars g t path).map Prod.fst =
        (segPathsN g vars t).map (joinSegsFrom path)
  | [], _ => by simp [specTraversal, segPathsN]
  | (k, .par v) :: rest, path => by
      have ih := specTraversal_keys vars g rest path
      by_cases hφ : (!g || needGradOf vars v) = true
      · simp [specTraversal, segPathsN, hφ, ih, joinSegsFrom, joinPath]
      · simp [specTraversal, segPathsN, hφ, ih]
  | (k, .sub t) :: rest, path => by
      have ih1 := specTraversal_keys vars g t (joinPath path k)
      have ih2 := specTraversal_keys vars g rest path
      simp only [specTraversal, segPathsN, List.map_append, ih1, ih2, List.map_map]
      congr 1

theorem wfNode_cons {k : String} {e : Entry} {rest : Node} (h : wfNode ((k, e) :: rest) = true) :
    keyOk k = true ∧ (rest.any (fun p => p.1 == k)) = false ∧
      wfEntry e = true ∧ wfNode rest = true := by
  simp only [wfNode, Bool.and_eq_true, Bool.not_eq_true'] at h
  exact ⟨h.1.1.1, h.1.1.2, h.1.2, h.2⟩

mutual

theorem wfEntry_nodupEntry : ∀ (e : Entry), wfEntry e = true → nodupEntry e = true
  | .par _, _ => rfl
  | .sub t, h => by
      simp only [wfEntry] at h
      simpa [nodupEntry] using wfNode_nodupNode t h

theorem wfNode_nodupNode : ∀ (t : Node), wfNode t = true → nodupNode t = true
  | [], _ => rfl
  | (k, e) :: rest, h => by
      obtain ⟨_, hany, he, hrest⟩ := wfNode_cons h
      simp [nodupNode, hany, wfEntry_nodupEntry e he, wfNode_nodupNode rest hrest]

end

theorem segPaths_mem_wf (g : Bool) (vars : List Var) :
    ∀ {t : Node}, wfNode t = true →
      ∀ p ∈ segPathsN g vars t, p ≠ [] ∧ ∀ seg ∈ p, keyOk seg = true
  | [], _, p, hp => by simp [segPathsN] at hp
  | (k, .par v) :: rest, h, p, hp => by
      obtain ⟨hk, _, _, hrest⟩ := wfNode_cons h
      simp only [segPathsN] at hp
      rcases List.mem_append.mp hp with hl | hr
      · have : p = [k] := by
          by_cases hφ : (!g || needGradOf vars v) = true <;> simp [hφ] at hl
          · exact hl
        subst this
        exact ⟨by simp, by intro seg hsg; simp at hsg; subst hsg; exact hk⟩
      · exact segPaths_mem_wf g vars hrest p hr
  | (k, .sub t) :: rest, h, p, hp => by
      obtain ⟨hk, _, he, hrest⟩ := wfNode_cons h
      have het : wfNode t = true := by simpa [wfEntry] using he
      simp only [segPathsN] at hp
      rcases List.mem_append.mp hp with hl | hr
      · obtain ⟨q, hq, rfl⟩ := List.mem_map.mp hl
        obtain ⟨hqne, hqseg⟩ := segPaths_mem_wf g vars het q hq
        refine ⟨by simp, ?_⟩
        intro seg hsg
        rcases List.mem_cons.mp hsg with rfl | hsg'
        · exact hk
        · exact hqseg seg hsg'
      · exact segPaths_mem_wf g vars hrest p hr

theorem segPaths_head (g : Bool) (vars : List Var) :
    ∀ {t : Node} {p : List String}, p ∈ segPathsN g vars t →
      ∃ k rest, p = k :: rest ∧ ∃ e, (k, e) ∈ t
  | [], p, hp => by simp [segPathsN] at hp
  | (k, .par v) :: rest, p, hp => by
      simp only [segPathsN] at hp
      rcases List.mem_append.mp hp with hl | hr
      · have : p = [k] := by
          by_cases hφ : (!g || needGradOf vars v) = true <;> simp [hφ] at hl
          · exact hl
        exact ⟨k, [], this, .par v, List.mem_cons_self _ _⟩
      · obtain ⟨k', rest', hp', e, hmem⟩ := segPaths_head g vars hr
        exact ⟨k', rest', hp', e, List.mem_cons_of_mem _ hmem⟩
  | (k, .sub t) :: rest, p, hp => by
      simp only [segPathsN] at hp
      rcases List.mem_append.mp hp with hl | hr
      · obtain ⟨q, _, rfl⟩ := List.mem_map.mp hl
        exact ⟨k, q, rfl, .sub t, List.mem_cons_self _ _⟩
      · obtain ⟨k', rest', hp', e, hmem⟩ := segPaths_head g vars hr
        exact ⟨k', rest', hp', e, List.mem_cons_of_mem _ hmem⟩

theorem segPaths_nodup (g : Bool) (vars : List Var) :
    ∀ {t : Node}, wfNode t = true → (segPathsN g vars t).Nodup
  | [], _ => by simp [segPathsN]
  | (k, .par v) :: rest, h => by
      obtain ⟨_, hany, _, hrest⟩ := wfNode_cons h
      have ihr := segPaths_nodup g vars hrest
      simp only [segPathsN]
      refine List.Nodup.append ?_ ihr ?_
      · by_cases hφ : (!g || needGradOf vars v) = true <;> simp [hφ]
      · intro p hp hpr
        have hpk : p = [k] := by
          by_cases hφ : (!g || needGradOf vars v) = true <;> simp [hφ] at hp
          · exact hp
        subst hpk
        obtain ⟨k', rest', heq, e, hmem⟩ := segPaths_head g vars hpr
        injection heq with h1 h2
        subst h1
        have hk : rest.any (fun p => p.1 == k) = true :=
          List.any_eq_true.mpr ⟨(k, e), hmem, by simp⟩
        rw [hk] at hany
        cases hany
  | (k, .sub t) :: rest, h => by
      obtain ⟨_, hany, he, hrest⟩ := wfNode_cons h
      have het : wfNode t = true := by simpa [wfEntry] using he
      have iht := segPaths_nodup g vars het
      have ihr := segPaths_nodup g vars hrest
      simp only [segPathsN]
      refine List.Nodup.append (iht.map ?_) ihr ?_
      · intro p q hpq
        injection hpq
      · intro p hp hpr
        obtain ⟨q, _, rfl⟩ := List.mem_map.mp hp
        obtain ⟨k', rest', heq, e, hmem⟩ := segPaths_head g vars hpr
        injection heq with h1 h2
        subst h1
        have hk : rest.any (fun p => p.1 == k) = true :=
          List.any_eq_true.mpr ⟨(k, e), hmem, by simp⟩
        rw [hk] at hany
        cases hany

theorem specTraversal_keys_nodup {vars : List Var} {g : Bool} {t : Node}
    (hwf : wfNode t = true) :
    ((specTraversal vars g t "").map Prod.fst).Nodup := by
  rw [specTraversal_keys]
  refine List.Nodup.map_on ?_ (segPaths_nodup g vars hwf)
  intro p hp q hq heq
  obtain ⟨hpne, hpseg⟩ := segPaths_mem_wf g vars hwf p hp
  obtain ⟨hqne, hqseg⟩ := segPaths_mem_wf g vars hwf q hq
  have h1 := splitSlash_joinSegsFrom_root hpne hpseg
  have h2 := splitSlash_joinSegsFrom_root hqne hqseg
  rw [← h1, ← h2, heq]

/-!  The accumulated collection equals the specified depth-first traversal. -/

theorem insertOD_absent {m : List (String × Nat)} {k : String} (v : Nat)
    (h : k ∉ m.map Prod.fst) : insertOD m k v = m ++ [(k, v)] := by
  induction m with
  | nil => simp [insertOD]
  | cons hd tl ih =>
      obtain ⟨k0, v0⟩ := hd
      simp only [List.map_cons, List.mem_cons] at h
      push_neg at h
      obtain ⟨h1, h2⟩ := h
      have h0 : k0 ≠ k := fun hh => h1 hh.symm
      simp [insertOD, h0, ih h2]

theorem collectPure_spec (vars : List Var) (g : Bool) :
    ∀ (items : List (String × Entry)) (path : String) (acc : List (String × Nat)),
      (acc.map Prod.fst ++ (specTraversal vars g items path).map Prod.fst).Nodup →
      collectPure vars g items path acc = acc ++ specTraversal vars g items path
  | [], path, acc, _ => by simp [collectPure, specTraversal]
  | (k, .par v) :: rest, path, acc, h => by
      by_cases hφ : (!g || needGradOf vars v) = true
      · have hkeys : (specTraversal vars g ((k, .par v) :: rest) path).map Prod.fst =
            joinPath path k :: (specTraversal vars g rest path).map Prod.fst := by
          simp [specTraversal, hφ]
        rw [hkeys] at h
        have hfresh : joinPath path k ∉ acc.map Prod.fst := by
          intro hmem
          exact List.disjoint_of_nodup_append h hmem (List.mem_cons_self _ _)
        have hacc : insertOD acc (joinPath path k) v = acc ++ [(joinPath path k, v)] :=
          insertOD_absent v hfresh
        have h' : ((acc ++ [(joinPath path k, v)]).map Prod.fst ++
            (specTraversal vars g rest path).map Prod.fst).Nodup := by
          rw [List.map_append, List.append_assoc]
          simpa using h
        have ih := collectPure_spec vars g rest path (acc ++ [(joinPath path k, v)]) h'
        simp only [collectPure, hφ, if_true, hacc, ih]
        simp [specTraversal, hφ]
      · have hspec : specTraversal vars g ((k, .par v) :: rest) path =
            specTraversal vars g rest path := by simp [specTraversal, hφ]
        rw [hspec] at h ⊢
        have ih := collectPure_spec vars g rest path acc h
        simpa [collectPure, hφ] using ih
  | (k, .sub t) :: rest, path, acc, h => by
      have hspec : specTraversal vars g ((k, .sub t) :: rest) path =
          specTraversal vars g t (joinPath path k) ++ specTraversal vars g rest path := by
        simp [specTraversal]
      rw [hspec] at h ⊢
      rw [List.map_append] at h
      have h1 : (acc.map Prod.fst ++
          (specTraversal vars g t (joinPath path k)).map Prod.fst).Nodup := by
        rw [← List.append_assoc] at h
        exact List.Nodup.sublist (List.sublist_append_left _ _) h
      have hinner := collectPure_spec vars g t (joinPath path k) acc h1
      have h2 : ((acc ++ specTraversal vars g t (joinPath path k)).map Prod.fst ++
          (specTraversal vars g rest path).map Prod.fst).Nodup := by
        rw [List.map_append, List.append_assoc]
        exact h
      have ih := collectPure_spec vars g rest path
        (acc ++ specTraversal vars g t (joinPath path k)) h2
      simp only [collectPure, hinner, ih, List.append_assoc]

/-- `get_parameters` on a well-formed current scope: no failure, no state
change, and the returned ordered mapping is exactly the spec's depth-first,
insertion-ordered traversal with '/'-joined keys. -/
theorem get_parameters_spec {s : PState} (g : Bool) (hwf : wfNode (curNode s) = true) :
    get_parameters g s = .ok (specTraversal s.vars g (curNode s) "") s := by
  rw [get_parameters_pure g (wfNode_nodupNode _ hwf)]
  rw [collectPure_spec s.vars g (curNode s) "" []
    (by simpa using specTraversal_keys_nodup hwf)]
  simp

theorem specTraversal_filter (vars : List Var) :
    ∀ (t : Node) (path p : String) (v : Nat),
      ((p, v) ∈ specTraversal vars true t path ↔
        (p, v) ∈ specTraversal vars false t path ∧ needGradOf vars v = true)
  | [], _, _, _ => by simp [specTraversal]
  | (k, .par w) :: rest, path, p, v => by
      have ih := specTraversal_filter vars rest path p v
      have e0 : specTraversal vars false ((k, .par w) :: rest) path =
          (joinPath path k, w) :: specTraversal vars false rest path := by
        simp [specTraversal]
      by_cases hw : needGradOf vars w = true
      · have e1 : specTraversal vars true ((k, .par w) :: rest) path =
            (joinPath path k, w) :: specTraversal vars true rest path := by
          simp [specTraversal, hw]
        rw [e1, e0]
        constructor
        · intro h
          rcases List.mem_cons.mp h with h1 | h2
          · rw [Prod.mk.injEq] at h1
            obtain ⟨rfl, rfl⟩ := h1
            exact ⟨List.mem_cons_self _ _, hw⟩
          · obtain ⟨h2', hng⟩ := ih.mp h2
            exact ⟨List.mem_cons_of_mem _ h2', hng⟩
        · rintro ⟨hmem, hng⟩
          rcases List.mem_cons.mp hmem with h1 | h2
          · rw [h1]
            exact List.mem_cons_self _ _
          · exact List.mem_cons_of_mem _ (ih.mpr ⟨h2, hng⟩)
      · have hwf : needGradOf vars w = false := by
          revert hw
          cases needGradOf vars w <;> simp
        have e1 : specTraversal vars true ((k, .par w) :: rest) path =
            specTraversal vars true rest path := by
          simp [specTraversal, hwf]
        rw [e1, e0]
        constructor
        · intro h
          obtain ⟨h2', hng⟩ := ih.mp h
          exact ⟨List.mem_cons_of_mem _ h2', hng⟩
        · rintro ⟨hmem, hng⟩
          rcases List.mem_cons.mp hmem with h1 | h2
          · exfalso
            rw [Prod.mk.injEq] at h1
            obtain ⟨-, rfl⟩ := h1
            rw [hng] at hwf
            cases hwf
          · exact ih.mpr ⟨h2, hng⟩
  | (k, .sub t) :: rest, path, p, v => by
      have iht := specTraversal_filter vars t (joinPath path k) p v
      have ihr := specTraversal_filter vars rest path p v
      have e1 : specTraversal vars true ((k, .sub t) :: rest) path =
          specTraversal vars true t (joinPath path k) ++
            specTraversal vars true rest path := by simp [specTraversal]
      have e0 : specTraversal vars false ((k, .sub t) :: rest) path =
          specTraversal vars false t (joinPath path k) ++
            specTraversal vars false rest path := by simp [specTraversal]
      rw [e1, e0]
      constructor
      · intro h
        rcases List.mem_append.mp h with h1 | h2
        · obtain ⟨h', hng⟩ := iht.mp h1
          exact ⟨List.mem_append.mpr (Or.inl h'), hng⟩
        · obtain ⟨h', hng⟩ := ihr.mp h2
          exact ⟨List.mem_append.mpr (Or.inr h'), hng⟩
      · rintro ⟨hmem, hng⟩
        rcases List.mem_append.mp hmem with h1 | h2
        · exact List.mem_append.mpr (Or.inl (iht.mpr ⟨h1, hng⟩))
        · exact List.mem_append.mpr (Or.inr (ihr.mpr ⟨h2, hng⟩))

/-!  Claim C6. -/

/-- Claim C6: on a well-formed scope tree, `get_parameters` leaves the
state unchanged and returns exactly the specified depth-first traversal of
the current scope — each node's entries visited in insertion (list) order,
subscopes recursed into positionally, keys '/'-joined — so a second call
with no intervening mutation returns the identical ordered mapping. -/
theorem claim_C6 {s : PState} (g : Bool) (hwf : wfNode (curNode s) = true) :
    get_parameters g s = .ok (specTraversal s.vars g (curNode s) "") s ∧
    (∀ out s1, get_parameters g s = .ok out s1 → get_parameters g s1 = .ok out s1) := by
  have h := get_parameters_spec g hwf
  refine ⟨h, ?_⟩
  intro out s1 h2
  rw [h] at h2
  cases h2
  exact h

/-- Witness for C6 on a two-entry scope with a nested subscope. -/
theorem claim_C6_witness :
    (wfNode (curNode (PState.mk
        [(("b"), Entry.par 0), (("a"), Entry.sub [(("w"), Entry.par 1)])] []
        [⟨[1], false, 0⟩, ⟨[1], true, 1⟩] [[1], [2]])) = true) ∧
      get_parameters false (PState.mk
          [(("b"), Entry.par 0), (("a"), Entry.sub [(("w"), Entry.par 1)])] []
          [⟨[1], false, 0⟩, ⟨[1], true, 1⟩] [[1], [2]]) =
        .ok [(("b"), 0), (("a/w"), 1)] (PState.mk
          [(("b"), Entry.par 0), (("a"), Entry.sub [(("w"), Entry.par 1)])] []
          [⟨[1], false, 0⟩, ⟨[1], true, 1⟩] [[1], [2]]) := by
  refine ⟨rfl, ?_⟩
  have h := (@claim_C6 (PState.mk
    [(("b"), Entry.par 0), (("a"), Entry.sub [(("w"), Entry.par 1)])] []
    [⟨[1], false, 0⟩, ⟨[1], true, 1⟩] [[1], [2]]) false rfl).1
  have he : specTraversal (PState.mk
      [(("b"), Entry.par 0), (("a"), Entry.sub [(("w"), Entry.par 1)])] []
      [⟨[1], false, 0⟩, ⟨[1], true, 1⟩] [[1], [2]]).vars false
      (curNode (PState.mk
        [(("b"), Entry.par 0), (("a"), Entry.sub [(("w"), Entry.par 1)])] []
        [⟨[1], false, 0⟩, ⟨[1], true, 1⟩] [[1], [2]])) "" =
      [(("b"), 0), (("a/w"), 1)] := by
    simp [specTraversal, curNode, lookupNode, needGradOf, joinPath]
  rw [he] at h
  exact h

/-!  Claim C9. -/

/-- Claim C9: a Variable registered (at path p) under the current scope is
included in `get_parameters(grad_only=false)`; it is included in
`get_parameters(grad_only=true)` exactly when its `need_grad` is true, and
excluded from it when `need_grad` is false.  The two `get_parameters`
equations identify the returned mappings with the traversal the membership
statements range over. -/
theorem claim_C9 {s : PState} {p : String} {v : Nat}
    (hwf : wfNode (curNode s) = true)
    (hreg : (p, v) ∈ specTraversal s.vars false (curNode s) "") :
    get_parameters false s = .ok (specTraversal s.vars false (curNode s) "") s ∧
    get_parameters true s = .ok (specTraversal s.vars true (curNode s) "") s ∧
    (needGradOf s.vars v = false →
      (p, v) ∈ specTraversal s.vars false (curNode s) "" ∧
      (p, v) ∉ specTraversal s.vars true (curNode s) "") ∧
    (needGradOf s.vars v = true →
      (p, v) ∈ specTraversal s.vars false (curNode s) "" ∧
      (p, v) ∈ specTraversal s.vars true (curNode s) "") := by
  refine ⟨get_parameters_spec false hwf, get_parameters_spec true hwf, ?_, ?_⟩
  · intro hng
    refine ⟨hreg, ?_⟩
    intro hmem
    obtain ⟨-, hng'⟩ := (specTraversal_filter s.vars (curNode s) "" p v).mp hmem
    rw [hng] at hng'
    cases hng'
  · intro hng
    exact ⟨hreg, (specTraversal_filter s.vars (curNode s) "" p v).mpr ⟨hreg, hng⟩⟩

/-- Witness for C9: a need_grad=false Variable is excluded from the
grad-only mapping, a need_grad=true one included. -/
theorem claim_C9_witness :
    (wfNode (curNode (PState.mk
        [(("c"), Entry.par 0), (("d"), Entry.par 1)] []
        [⟨[1], false, 0⟩, ⟨[1], true, 1⟩] [[1], [2]])) = true) ∧
      ((("c"), 0) ∉ specTraversal
        (PState.mk [(("c"), Entry.par 0), (("d"), Entry.par 1)] []
          [⟨[1], false, 0⟩, ⟨[1], true, 1⟩] [[1], [2]]).vars true
        (curNode (PState.mk [(("c"), Entry.par 0), (("d"), Entry.par 1)] []
          [⟨[1], false, 0⟩, ⟨[1], true, 1⟩] [[1], [2]])) "") ∧
      ((("d"), 1) ∈ specTraversal
        (PState.mk [(("c"), Entry.par 0), (("d"), Entry.par 1)] []
          [⟨[1], false, 0⟩, ⟨[1], true, 1⟩] [[1], [2]]).vars true
        (curNode (PState.mk [(("c"), Entry.par 0), (("d"), Entry.par 1)] []
          [⟨[1], false, 0⟩, ⟨[1], true, 1⟩] [[1], [2]])) "") := by
  have hm : ∀ q w, (q, w) ∈ specTraversal
      (PState.mk [(("c"), Entry.par 0), (("d"), Entry.par 1)] []
        [⟨[1], false, 0⟩, ⟨[1], true, 1⟩] [[1], [2]]).vars false
      (curNode (PState.mk [(("c"), Entry.par 0), (("d"), Entry.par 1)] []
        [⟨[1], false, 0⟩, ⟨[1], true, 1⟩] [[1], [2]])) "" ↔
      ((q, w) = (("c"), 0) ∨ (q, w) = (("d"), 1)) := by
    intro q w
    rw [show specTraversal
        (PState.mk [(("c"), Entry.par 0), (("d"), Entry.par 1)] []
          [⟨[1], false, 0⟩, ⟨[1], true, 1⟩] [[1], [2]]).vars false
        (curNode (PState.mk [(("c"), Entry.par 0), (("d"), Entry.par 1)] []
          [⟨[1], false, 0⟩, ⟨[1], true, 1⟩] [[1], [2]])) "" =
        [(("c"), 0), (("d"), 1)] from by
      simp [specTraversal, curNode, lookupNode, needGradOf, joinPath]]
    simp
  refine ⟨rfl, ?_, ?_⟩
  · exact ((@claim_C9 (PState.mk [(("c"), Entry.par 0), (("d"), Entry.par 1)] []
      [⟨[1], false, 0⟩, ⟨[1], true, 1⟩] [[1], [2]]) ("c") 0 rfl
      ((hm _ _).mpr (Or.inl rfl))).2.2.1 rfl).2
  · exact ((@claim_C9 (PState.mk [(("c"), Entry.par 0), (("d"), Entry.par 1)] []
      [⟨[1], false, 0⟩, ⟨[1], true, 1⟩] [[1], [2]]) ("d") 1 rfl
      ((hm _ _).mpr (Or.inr rfl))).2.2.2 rfl).2


/-- Claim C8: with a path whose extension is neither ".h5" nor ".protobuf",
`save_parameters` fails with the unsupported-format failure
(`logger.critical('Only supported hdf5 or protobuf.'); assert False`)
before producing any file, while `load_parameters` falls through both
format branches without raising: it returns its `proto` argument (a fresh
empty message when none is given) and leaves the state — hence the
parameter set — unchanged. -/
theorem claim_C8 {s : PState} (path : String) (content : SavedFile)
    (proto : Option (List PbParam))
    (hnd : nodupNode (curNode s) = true)
    (h5 : splitextExt path ≠ ".h5") (hpb : splitextExt path ≠ ".protobuf") :
    save_parameters path s = .err ("Only supported hdf5 or protobuf.") s ∧
    load_parameters path content proto s = .ok (proto.getD []) s := by
  constructor
  · simp only [save_parameters, get_parameters_pure false hnd, h5, hpb, if_false]
  · simp [load_parameters, h5, hpb]

/-- Witness for C8 at the extension ".ckpt". -/
theorem claim_C8_witness :
    (nodupNode (curNode (PState.mk [(("w"), Entry.par 0)] [] [⟨[1], true, 0⟩] [[1]])) =
      true) ∧
      (splitextExt ("params.ckpt") ≠ ".h5") ∧
      save_parameters ("params.ckpt")
          (PState.mk [(("w"), Entry.par 0)] [] [⟨[1], true, 0⟩] [[1]]) =
        .err ("Only supported hdf5 or protobuf.")
          (PState.mk [(("w"), Entry.par 0)] [] [⟨[1], true, 0⟩] [[1]]) ∧
      load_parameters ("params.ckpt") (SavedFile.pb [⟨("x"), [1], [5], true⟩]) none
          (PState.mk [(("w"), Entry.par 0)] [] [⟨[1], true, 0⟩] [[1]]) =
        .ok []
          (PState.mk [(("w"), Entry.par 0)] [] [⟨[1], true, 0⟩] [[1]]) := by
  refine ⟨rfl, by decide, ?_, ?_⟩
  · exact (@claim_C8 (PState.mk [(("w"), Entry.par 0)] [] [⟨[1], true, 0⟩] [[1]])
      ("params.ckpt") (SavedFile.pb [⟨("x"), [1], [5], true⟩]) none rfl
      (by decide) (by decide)).1
  · exact (@claim_C8 (PState.mk [(("w"), Entry.par 0)] [] [⟨[1], true, 0⟩] [[1]])
      ("params.ckpt") (SavedFile.pb [⟨("x"), [1], [5], true⟩]) none rfl
      (by decide) (by decide)).2

/-!  Claim C1. -/

/-- Claim C1 is refuted at this input: when a parameter exists at the path
with the opposite `need_grad`, every call returns a FRESH unlinked alias,
so two successive calls with identical path, shape and `need_grad` return
distinct Variable instances (indices 1 and then 2), not the identical one. -/
theorem claim_C1_counterexample :
    get_parameter_or_create [2] none false [("w")]
        (PState.mk [(("w"), Entry.par 0)] [] [⟨[2], true, 0⟩] [[0, 0]]) =
      .ok 1 (PState.mk [(("w"), Entry.par 0)] []
        [⟨[2], true, 0⟩, ⟨[2], false, 0⟩] [[0, 0]]) ∧
    get_parameter_or_create [2] none false [("w")]
        (PState.mk [(("w"), Entry.par 0)] []
          [⟨[2], true, 0⟩, ⟨[2], false, 0⟩] [[0, 0]]) =
      .ok 2 (PState.mk [(("w"), Entry.par 0)] []
        [⟨[2], true, 0⟩, ⟨[2], false, 0⟩, ⟨[2], false, 0⟩] [[0, 0]]) ∧
    (1 : Nat) ≠ 2 :=
  ⟨rfl, rfl, by decide⟩

/-- Claim C1 (amended): provided no parameter is registered at path `p`
before the first call (so the first call creates it; equivalently, whenever
the requested `need_grad` matches the stored flag), a second call with the
same path, shape and `need_grad` returns the identical Variable instance
with the state unchanged; a subsequent call with the opposite `need_grad`
returns a distinct instance that shares the underlying data array
(`dataRef`) but carries its own `need_grad`, and the original instance's
attributes (in particular its `need_grad`) are unchanged.  When the stored
flag differs from the requested one, each call returns a fresh alias (see
the counterexample). -/
theorem claim_C1_amended {s : PState} {N : Node} (names : List String) (shape : List Nat)
    (init : Option (List Nat → List Int)) (g : Bool)
    (hcur : lookupNode s.root s.cur = some N) (hfresh : freshLeafB N names = true) :
    ∃ v s1, get_parameter_or_create shape init g names s = .ok v s1 ∧
      get_parameter_or_create shape init g names s1 = .ok v s1 ∧
      ∃ v' s2, get_parameter_or_create shape init (!g) names s1 = .ok v' s2 ∧
        v' ≠ v ∧
        s2.vars.get? v = s1.vars.get? v ∧
        s1.vars.get? v = some ⟨shape, g, s.bufs.length⟩ ∧
        s2.vars.get? v' = some ⟨shape, !g, s.bufs.length⟩ := by
  have h1 := gpoc_create names shape init g hcur hfresh
  have hcur1 : lookupNode
      (updateNode s.root s.cur (fun m => insertPath s.vars.length m names)) s.cur =
        some (insertPath s.vars.length N names) := lookupNode_updateNode_self _ hcur
  have hfind1 : findVar (insertPath s.vars.length N names) names = some s.vars.length :=
    findVar_insertPath s.vars.length names N hfresh
  have hvar1 : (s.vars ++ [(⟨shape, g, s.bufs.length⟩ : Var)]).get? s.vars.length =
      some ⟨shape, g, s.bufs.length⟩ := List.get?_concat_length _ _
  refine ⟨s.vars.length,
    { s with root := updateNode s.root s.cur (fun m => insertPath s.vars.length m names),
             vars := s.vars ++ [⟨shape, g, s.bufs.length⟩],
             bufs := s.bufs ++ [bufInit init shape] },
    h1, ?_, ?_⟩
  · exact gpoc_found_eq names shape init g hcur1 hfind1 hvar1 rfl rfl
  · refine ⟨(s.vars ++ [(⟨shape, g, s.bufs.length⟩ : Var)]).length, _,
      gpoc_found_alias names shape init (!g) hcur1 hfind1 hvar1 rfl
        (by cases g <;> simp), ?_, ?_, hvar1, ?_⟩
    · simp
    · refine List.get?_append ?_
      simp
    · exact List.get?_concat_length _ _

/-- Witness for the amended C1: creating "w" with shape [2] and
need_grad=true from the empty state, then re-fetching it and aliasing it. -/
theorem claim_C1_witness :
    (freshLeafB [] [("w")] = true) ∧
      ∃ v s1, get_parameter_or_create [2] none true [("w")] (PState.mk [] [] [] []) =
          .ok v s1 ∧
        get_parameter_or_create [2] none true [("w")] s1 = .ok v s1 ∧
        ∃ v' s2, get_parameter_or_create [2] none false [("w")] s1 = .ok v' s2 ∧
          v' ≠ v ∧
          s2.vars.get? v = s1.vars.get? v ∧
          s1.vars.get? v = some ⟨[2], true, 0⟩ ∧
          s2.vars.get? v' = some ⟨[2], false, 0⟩ :=
  ⟨rfl, @claim_C1_amended (PState.mk [] [] [] []) [] [("w")] [2] none true rfl rfl⟩

/-!  Claim C3. -/

/-- Claim C3: `get_parameter_or_create` on a path holding a parameter whose
stored shape differs from the requested one fails with the shape assertion
surfaced to the caller, and returns no Variable. -/
theorem claim_C3 {s : PState} {N : Node} {w : Nat} {var : Var} (names : List String)
    (shape : List Nat) (init : Option (List Nat → List Int)) (g : Bool)
    (hcur : lookupNode s.root s.cur = some N)
    (hfind : findVar N names = some w)
    (hvar : s.vars.get? w = some var)
    (hne : var.shape ≠ shape) :
    ∃ s', get_parameter_or_create shape init g names s =
      .err ("assert param.shape == tuple(shape)") s' :=
  gpoc_found_mismatch names shape init g hcur hfind hvar hne

/-- Witness for C3: a parameter of shape (2,2) requested with shape (3,3). -/
theorem claim_C3_witness :
    (findVar [(("p"), Entry.par 0)] [("p")] = some 0) ∧
      ∃ s', get_parameter_or_create [3, 3] none true [("p")]
          (PState.mk [(("p"), Entry.par 0)] [] [⟨[2, 2], true, 0⟩] [[0, 0, 0, 0]]) =
        .err ("assert param.shape == tuple(shape)") s' :=
  ⟨rfl, @claim_C3 (PState.mk [(("p"), Entry.par 0)] [] [⟨[2, 2], true, 0⟩] [[0, 0, 0, 0]])
    [(("p"), Entry.par 0)] 0 ⟨[2, 2], true, 0⟩ [("p")] [3, 3] none true rfl rfl rfl
    (by decide)⟩

/-!  Claim C5. -/

/-- Claim C5 is refuted at this input: a parameter pre-exists at "w" with
need_grad=false and the loaded record carries need_grad=true; after the
load the pre-existing Variable (index 0) still has need_grad=false — only
the fresh unlinked alias (index 1) received the record's flag, because
`get_parameter_or_create` with the default need_grad=true returned that
alias and the post-creation assignment mutated it, not the tree's
Variable. -/
theorem claim_C5_counterexample :
    load_parameters ("f.protobuf") (SavedFile.pb [⟨("w"), [1], [9], true⟩]) none
        (PState.mk [(("w"), Entry.par 0)] [] [⟨[1], false, 0⟩] [[7]]) =
      .ok [⟨("w"), [1], [9], true⟩]
        (PState.mk [(("w"), Entry.par 0)] [] [⟨[1], false, 0⟩, ⟨[1], true, 0⟩] [[9]]) ∧
    ([⟨[1], false, 0⟩, ⟨[1], true, 0⟩] : List Var).get? 0 = some ⟨[1], false, 0⟩ ∧
    (⟨[1], false, 0⟩ : Var).needGrad ≠ (⟨("w"), [1], [9], true⟩ : PbParam).need_grad :=
  ⟨rfl, rfl, by decide⟩

/-- Claim C5 (amended): for each record the `.protobuf` loader calls
`get_parameter_or_create` with the record's path and shape and the default
need_grad=true, overwrites the returned Variable's shared data buffer with
the record's values, and then assigns the record's need_grad to the
returned Variable.  When the parameter pre-exists with need_grad=true that
returned Variable IS the stored one, so its flag is overwritten with the
record's value; when it pre-exists with need_grad=false the returned
Variable is a fresh unlinked alias, the alias receives the record's flag,
and the stored Variable's attributes (flag included) are left unchanged
(only its shared data buffer is overwritten). -/
theorem claim_C5_amended {s : PState} {N : Node} {w : Nat} {var : Var}
    (r : PbParam) (rest : List PbParam)
    (hcur : lookupNode s.root s.cur = some N)
    (hfind : findVar N (splitSlash r.variable_name) = some w)
    (hvar : s.vars.get? w = some var)
    (hshape : var.shape = r.shape)
    (hlen : r.data.length = shapeProd r.shape) :
    (var.needGrad = true →
      loadPbLoop (r :: rest) s =
        loadPbLoop rest
          { s with vars := s.vars.set w ⟨var.shape, r.need_grad, var.dataRef⟩,
                   bufs := s.bufs.set var.dataRef r.data }) ∧
    (var.needGrad = false →
      loadPbLoop (r :: rest) s =
        loadPbLoop rest
          { s with vars := s.vars ++ [⟨var.shape, r.need_grad, var.dataRef⟩],
                   bufs := s.bufs.set var.dataRef r.data } ∧
      (s.vars ++ [(⟨var.shape, r.need_grad, var.dataRef⟩ : Var)]).get? w = some var) := by
  obtain ⟨hw, -⟩ := List.get?_eq_some.mp hvar
  constructor
  · intro hng
    have hg := gpoc_found_eq (splitSlash r.variable_name) r.shape none true hcur hfind hvar
      hshape hng.symm
    have h1 := setVarData_eq hvar r.data
    have hvar2 : ({ s with bufs := s.bufs.set var.dataRef r.data } : PState).vars.get? w =
        some var := hvar
    have h2 := setVarNeedGrad_eq hvar2 r.need_grad
    simp only [loadPbLoop, hg, hlen, if_pos, h1, h2]
  · intro hng
    have hne : (true : Bool) ≠ var.needGrad := by rw [hng]; decide
    have hg := gpoc_found_alias (splitSlash r.variable_name) r.shape none true hcur hfind
      hvar hshape hne
    have halias : ({ s with
          vars := s.vars ++ [(⟨var.shape, true, var.dataRef⟩ : Var)] } : PState).vars.get?
            s.vars.length = some ⟨var.shape, true, var.dataRef⟩ :=
      List.get?_concat_length _ _
    refine ⟨?_, ?_⟩
    · have h1 := setVarData_eq halias r.data
      have halias2 : ({ s with
            vars := s.vars ++ [(⟨var.shape, true, var.dataRef⟩ : Var)],
            bufs := s.bufs.set var.dataRef r.data } : PState).vars.get? s.vars.length =
          some ⟨var.shape, true, var.dataRef⟩ := halias
      have h2 := setVarNeedGrad_eq halias2 r.need_grad
      simp only [loadPbLoop, hg, hlen, if_pos, h1, h2]
      rw [show ((s.vars ++ [(⟨var.shape, true, var.dataRef⟩ : Var)]).set s.vars.length
          ⟨var.shape, r.need_grad, var.dataRef⟩) =
          s.vars ++ [(⟨var.shape, r.need_grad, var.dataRef⟩ : Var)] from set_concat _ _ _]
    · rw [List.get?_append hw]
      exact hvar

/-- Witness for the amended C5, exercising both branches: records for "a"
(pre-existing need_grad=true) and "b" (pre-existing need_grad=false). -/
theorem claim_C5_witness :
    (findVar [(("a"), Entry.par 0), (("b"), Entry.par 1)] (splitSlash ("a")) = some 0) ∧
      (findVar [(("a"), Entry.par 0), (("b"), Entry.par 1)] (splitSlash ("b")) = some 1) ∧
      (loadPbLoop [⟨("a"), [1], [5], false⟩]
          (PState.mk [(("a"), Entry.par 0), (("b"), Entry.par 1)] []
            [⟨[1], true, 0⟩, ⟨[1], false, 1⟩] [[3], [4]]) =
        loadPbLoop []
          (PState.mk [(("a"), Entry.par 0), (("b"), Entry.par 1)] []
            [⟨[1], false, 0⟩, ⟨[1], false, 1⟩] [[5], [4]])) ∧
      (loadPbLoop [⟨("b"), [1], [6], true⟩]
          (PState.mk [(("a"), Entry.par 0), (("b"), Entry.par 1)] []
            [⟨[1], true, 0⟩, ⟨[1], false, 1⟩] [[3], [4]]) =
        loadPbLoop []
          (PState.mk [(("a"), Entry.par 0), (("b"), Entry.par 1)] []
            [⟨[1], true, 0⟩, ⟨[1], false, 1⟩, ⟨[1], true, 1⟩] [[3], [6]])) := by
  refine ⟨rfl, rfl, ?_, ?_⟩
  · exact (@claim_C5_amended
      (PState.mk [(("a"), Entry.par 0), (("b"), Entry.par 1)] []
        [⟨[1], true, 0⟩, ⟨[1], false, 1⟩] [[3], [4]])
      [(("a"), Entry.par 0), (("b"), Entry.par 1)] 0 ⟨[1], true, 0⟩
      ⟨("a"), [1], [5], false⟩ [] rfl rfl rfl rfl rfl).1 rfl
  · exact ((@claim_C5_amended
      (PState.mk [(("a"), Entry.par 0), (("b"), Entry.par 1)] []
        [⟨[1], true, 0⟩, ⟨[1], false, 1⟩] [[3], [4]])
      [(("a"), Entry.par 0), (("b"), Entry.par 1)] 1 ⟨[1], false, 1⟩
      ⟨("b"), [1], [6], true⟩ [] rfl rfl rfl rfl rfl).2 rfl).1

/-!  Claim C2. -/

/-- Claim C2 is refuted at this input: `parameter_scope` is a generator
context manager with no `try/finally` around its `yield`, so on abnormal
exit the previous current scope is NOT restored.  Entering scope "a" from
the root with a body that raises leaves the current scope at path ["a"]
instead of the root path [] the claim demands. -/
theorem claim_C2_counterexample :
    parameter_scope ("a") (fun s => (Res.err ("boom") s : Res Unit))
        (PState.mk [] [] [] []) =
      Res.err ("boom") (PState.mk [(("a"), Entry.sub [])] [("a")] [] []) ∧
    ([("a")] : List String) ≠ ([] : List String) :=
  ⟨rfl, by decide⟩

/-- Claim C2 (amended): for every sequence of nested `parameter_scope`
entries whose body exits NORMALLY, the current-scope reference after all
exits equals the reference held before the first entry; on abnormal exit
(an exception propagating out of the scope body) the previous scope is not
restored and the current scope stays where the failure left it (see the
counterexample). -/
theorem claim_C2_amended {α : Type} (names : List String) (body : PState → Res α)
    (s : PState) (a : α) (s' : PState) (hne : names ≠ [])
    (h : nestScopes names body s = .ok a s') : s'.cur = s.cur := by
  cases names with
  | nil => exact absurd rfl hne
  | cons k ks => exact parameter_scope_ok_cur h

/-- Witness for the amended C2 at a concrete nested entry sequence. -/
theorem claim_C2_witness :
    ((["a", "b"] : List String) ≠ []) ∧
      (PState.mk [(("a"), Entry.sub [(("b"), Entry.sub [])])] [] [] []).cur =
        (PState.mk [] [] [] []).cur :=
  ⟨by decide,
    claim_C2_amended ["a", "b"] (fun s => Res.ok 0 s) (PState.mk [] [] [] []) 0
      (PState.mk [(("a"), Entry.sub [(("b"), Entry.sub [])])] [] [] []) (by decide) rfl⟩

/-!  Claim C7. -/

/-- Claim C7: `clear_parameters` empties the current scope node only; the
variable heaps are untouched and every parameter at a path not under the
current scope (siblings, ancestors and their subtrees) resolves exactly as
before. -/
theorem claim_C7 {s : PState} {N : Node} (h : lookupNode s.root s.cur = some N) :
    clear_parameters s = .ok () { s with root := updateNode s.root s.cur (fun _ => []) } ∧
    lookupNode (updateNode s.root s.cur (fun _ => [])) s.cur = some [] ∧
    (∀ q, isUnder s.cur q = false →
      findVar (updateNode s.root s.cur (fun _ => [])) q = findVar s.root q) ∧
    ({ s with root := updateNode s.root s.cur (fun _ => []) } : PState).vars = s.vars ∧
    ({ s with root := updateNode s.root s.cur (fun _ => []) } : PState).bufs = s.bufs :=
  ⟨rfl, lookupNode_updateNode_self _ h, fun _ hq => findVar_updateNode _ hq, rfl, rfl⟩

/-- Witness for C7: clearing inside scope "sc" leaves the sibling parameter
"x" resolvable. -/
theorem claim_C7_witness :
    (lookupNode [(("x"), Entry.par 0), (("sc"), Entry.sub [(("y"), Entry.par 1)])]
        [("sc")] = some [(("y"), Entry.par 1)]) ∧
      (clear_parameters
          (PState.mk [(("x"), Entry.par 0), (("sc"), Entry.sub [(("y"), Entry.par 1)])]
            [("sc")] [⟨[2], true, 0⟩, ⟨[3], true, 1⟩] [[1, 1], [2, 2, 2]]) =
        .ok ()
          (PState.mk [(("x"), Entry.par 0), (("sc"), Entry.sub [])]
            [("sc")] [⟨[2], true, 0⟩, ⟨[3], true, 1⟩] [[1, 1], [2, 2, 2]])) ∧
      findVar [(("x"), Entry.par 0), (("sc"), Entry.sub [])] [("x")] =
        findVar [(("x"), Entry.par 0), (("sc"), Entry.sub [(("y"), Entry.par 1)])] [("x")] := by
  refine ⟨rfl, ?_, ?_⟩
  · exact (@claim_C7
      (PState.mk [(("x"), Entry.par 0), (("sc"), Entry.sub [(("y"), Entry.par 1)])]
        [("sc")] [⟨[2], true, 0⟩, ⟨[3], true, 1⟩] [[1, 1], [2, 2, 2]])
      [(("y"), Entry.par 1)] rfl).1
  · exact (@claim_C7
      (PState.mk [(("x"), Entry.par 0), (("sc"), Entry.sub [(("y"), Entry.par 1)])]
        [("sc")] [⟨[2], true, 0⟩, ⟨[3], true, 1⟩] [[1, 1], [2, 2, 2]])
      [(("y"), Entry.par 1)] rfl).2.2.1 [("x")] rfl

/-!  Claim C10. -/

/-- Claim C10: `get_parameter` is not a pure lookup.  On a path crossing
only subscopes or absent keys it returns the stored parameter (or "not
found"), but as a side effect it creates every missing intermediate
subscope as an empty scope node (`fillPath`); in particular, when the first
segment of a multi-segment path is absent, the lookup returns `none` yet
appends a fresh chain of empty subscopes to the current scope node. -/
theorem claim_C10 {s : PState} {N : Node} (names : List String)
    (hlen : 1 < names.length) (hcur : lookupNode s.root s.cur = some N)
    (hclean : cleanLookupB N names = true) :
    get_parameter names s =
      .ok (findVar N names)
        { s with root := updateNode s.root s.cur (fun m => fillPath m names) } ∧
    (∀ n0 rest, names = n0 :: rest → odGet N n0 = none →
      findVar N names = none ∧
      lookupNode (updateNode s.root s.cur (fun m => fillPath m names)) s.cur =
        some (N ++ [(n0, Entry.sub (emptyChain rest))])) := by
  refine ⟨get_parameter_clean names hcur hclean, ?_⟩
  rintro n0 rest rfl habs
  constructor
  · cases rest with
    | nil => simp at hlen
    | cons r rs => simp [findVar, habs]
  · rw [lookupNode_updateNode_self _ hcur]
    cases rest with
    | nil => simp at hlen
    | cons r rs => simp [fillPath, habs, odSet_absent _ habs]

/-- Witness for C10: looking up the absent path "x/y/z" from an empty root
returns "not found" yet inserts the empty scopes x and x/y. -/
theorem claim_C10_witness :
    (cleanLookupB [] [("x"), ("y"), ("z")] = true) ∧
      get_parameter [("x"), ("y"), ("z")] (PState.mk [] [] [] []) =
        .ok none (PState.mk [(("x"), Entry.sub [(("y"), Entry.sub [])])] [] [] []) := by
  refine ⟨rfl, ?_⟩
  exact (@claim_C10 (PState.mk [] [] [] []) [] [("x"), ("y"), ("z")]
    (by decide) rfl rfl).1

/-!  Toward the round-trip claim C4: loading rebuilds the saved records. -/

theorem splitSlashAux_ne_nil : ∀ (cs acc : List Char), splitSlashAux acc cs ≠ []
  | [], acc => by simp [splitSlashAux]
  | c :: rest, acc => by
      by_cases hc : c = '/'
      · simp [splitSlashAux, hc]
      · simpa [splitSlashAux, hc] using splitSlashAux_ne_nil rest (c :: acc)

theorem splitSlash_ne_nil (s : String) : splitSlash s ≠ [] := splitSlashAux_ne_nil s.data []

theorem splitSlash_pref {k : String} (nm : String) (hk : ('/' : Char) ∉ k.data) :
    splitSlash (k ++ "/" ++ nm) = k :: splitSlash nm := by
  rw [splitSlash_concat, splitSlash_no_slash hk]
  rfl

theorem odGet_append (l1 l2 : Node) (k : String) :
    odGet (l1 ++ l2) k =
      match odGet l1 k with
      | some v => some v
      | none => odGet l2 k := by
  induction l1 with
  | nil => simp [odGet]
  | cons hd tl ih =>
      obtain ⟨k0, v0⟩ := hd
      by_cases hk : k0 = k <;> simp [odGet, hk, ih]

theorem rebuildRecs_append :
    ∀ (l1 l2 : List PbParam) (n : Node) (vs : List Var) (bs : List (List Int)),
      rebuildRecs (l1 ++ l2) n vs bs =
        (rebuildRecs l1 n vs bs).bind (fun x => rebuildRecs l2 x.1 x.2.1 x.2.2)
  | [], l2, n, vs, bs => by simp [rebuildRecs]
  | r :: rest, l2, n, vs, bs => by
      by_cases hg : (freshLeafB n (splitSlash r.variable_name) &&
          (r.data.length == shapeProd r.shape)) = true
      · simp only [List.cons_append, rebuildRecs, hg, if_true]
        exact rebuildRecs_append rest l2 _ _ _
      · simp [rebuildRecs, hg]

theorem newVars_append : ∀ (l1 l2 : List PbParam) (d : Nat),
    newVars d (l1 ++ l2) = newVars d l1 ++ newVars (d + l1.length) l2
  | [], l2, d => by simp [newVars]
  | r :: rest, l2, d => by
      have ih := newVars_append rest l2 (d + 1)
      have harith : d + 1 + rest.length = d + (rest.length + 1) := by omega
      simp [newVars, ih, harith]

theorem newVars_length : ∀ (rs : List PbParam) (d : Nat), (newVars d rs).length = rs.length
  | [], _ => rfl
  | r :: rest, d => by simp [newVars, newVars_length rest (d + 1)]

theorem newVars_get? : ∀ (rs : List PbParam) (d i : Nat),
    (newVars d rs).get? i = (rs.get? i).map (fun r => (⟨r.shape, r.need_grad, d + i⟩ : Var))
  | [], d, i => by simp [newVars]
  | r :: rest, d, 0 => by simp [newVars]
  | r :: rest, d, i + 1 => by
      have ih := newVars_get? rest (d + 1) i
      rw [show d + 1 + i = d + (i + 1) from by omega] at ih
      simpa [newVars] using ih

theorem loadPbLoop_rebuild :
    ∀ (rs : List PbParam) {s : PState} {N N' : Node} {V' : List Var} {B' : List (List Int)},
      lookupNode s.root s.cur = some N →
      rebuildRecs rs N s.vars s.bufs = some (N', V', B') →
      loadPbLoop rs s = .ok ()
        { s with root := updateNode s.root s.cur (fun _ => N'), vars := V', bufs := B' }
  | [], s, N, N', V', B', hcur, hreb => by
      simp only [rebuildRecs] at hreb
      injection hreb with h
      injection h with h1 h23
      injection h23 with h2 h3
      subst h1
      subst h2
      subst h3
      simp only [loadPbLoop]
      rw [show updateNode s.root s.cur (fun _ => N) = s.root from updateNode_noop hcur rfl]
  | r :: rest, s, N, N', V', B', hcur, hreb => by
      simp only [rebuildRecs] at hreb
      by_cases hg : (freshLeafB N (splitSlash r.variable_name) &&
          (r.data.length == shapeProd r.shape)) = true
      · rw [if_pos hg] at hreb
        have hfresh : freshLeafB N (splitSlash r.variable_name) = true :=
          ((Bool.and_eq_true ..).mp hg).1
        have hlenb : (r.data.length == shapeProd r.shape) = true :=
          ((Bool.and_eq_true ..).mp hg).2
        have hlen : r.data.length = shapeProd r.shape := eq_of_beq hlenb
        have hgp := gpoc_create (splitSlash r.variable_name) r.shape none true hcur hfresh
        have hv1 : ((s.vars ++ [(⟨r.shape, true, s.bufs.length⟩ : Var)])).get?
            s.vars.length = some ⟨r.shape, true, s.bufs.length⟩ :=
          List.get?_concat_length _ _
        have hsd := @setVarData_eq { s with
          root := updateNode s.root s.cur
            (fun m => insertPath s.vars.length m (splitSlash r.variable_name)),
          vars := s.vars ++ [⟨r.shape, true, s.bufs.length⟩],
          bufs := s.bufs ++ [bufInit none r.shape] } s.vars.length
          ⟨r.shape, true, s.bufs.length⟩ hv1 r.data
        have hsg := @setVarNeedGrad_eq { s with
          root := updateNode s.root s.cur
            (fun m => insertPath s.vars.length m (splitSlash r.variable_name)),
          vars := s.vars ++ [⟨r.shape, true, s.bufs.length⟩],
          bufs := (s.bufs ++ [bufInit none r.shape]).set s.bufs.length r.data }
          s.vars.length ⟨r.shape, true, s.bufs.length⟩ hv1 r.need_grad
        have hbs : (s.bufs ++ [bufInit none r.shape]).set s.bufs.length r.data =
            s.bufs ++ [r.data] := set_concat _ _ _
        have hvs : (s.vars ++ [(⟨r.shape, true, s.bufs.length⟩ : Var)]).set s.vars.length
            ⟨r.shape, r.need_grad, s.bufs.length⟩ =
            s.vars ++ [⟨r.shape, r.need_grad, s.bufs.length⟩] := set_concat _ _ _
        have hcur2 : lookupNode
            (updateNode s.root s.cur
              (fun m => insertPath s.vars.length m (splitSlash r.variable_name))) s.cur =
            some (insertPath s.vars.length N (splitSlash r.variable_name)) :=
          lookupNode_updateNode_self _ hcur
        have ih := @loadPbLoop_rebuild rest { s with
          root := updateNode s.root s.cur
            (fun m => insertPath s.vars.length m (splitSlash r.variable_name)),
          vars := s.vars ++ [⟨r.shape, r.need_grad, s.bufs.length⟩],
          bufs := s.bufs ++ [r.data] } _ _ _ _ hcur2 hreb
        simp only [loadPbLoop, hgp, hlen, if_pos]
        rw [hsd, hsg]
        simp only [hbs, hvs]
        rw [ih]
        rw [updateNode_comp]
      · rw [if_neg hg] at hreb
        cases hreb

theorem rebuildRecs_under (k : String) (hk : ('/' : Char) ∉ k.data) :
    ∀ (rs : List PbParam) (N t : Node) (vs : List Var) (bs : List (List Int)),
      (odGet N k = some (.sub t) ∨ (odGet N k = none ∧ t = [] ∧ rs ≠ [])) →
      rebuildRecs (rs.map (prefRec k)) N vs bs =
        (rebuildRecs rs t vs bs).map (fun x => (odSet N k (.sub x.1), x.2.1, x.2.2))
  | [], N, t, vs, bs, hcase => by
      rcases hcase with hsub | ⟨_, _, hne⟩
      · simp [rebuildRecs, odGet_odSet_self hsub]
      · exact absurd rfl hne
  | r :: rest, N, t, vs, bs, hcase => by
      obtain ⟨p0, prest, hp⟩ : ∃ p0 prest, splitSlash r.variable_name = p0 :: prest := by
        cases hsp : splitSlash r.variable_name with
        | nil => exact absurd hsp (splitSlash_ne_nil _)
        | cons a b => exact ⟨a, b, rfl⟩
      have hsplit : splitSlash (prefRec k r).variable_name =
          k :: splitSlash r.variable_name := by
        show splitSlash (k ++ "/" ++ r.variable_name) = _
        exact splitSlash_pref _ hk
      have hfresh_eq : freshLeafB N (splitSlash (prefRec k r).variable_name) =
          freshLeafB t (splitSlash r.variable_name) := by
        rw [hsplit, hp]
        rcases hcase with hsub | ⟨hnone, ht, _⟩
        · simp [freshLeafB, hsub]
        · subst ht
          cases prest with
          | nil => simp [freshLeafB, hnone, odGet]
          | cons a b => simp [freshLeafB, hnone, odGet]
      by_cases hg : (freshLeafB t (splitSlash r.variable_name) &&
          (r.data.length == shapeProd r.shape)) = true
      · have hg' : (freshLeafB N (splitSlash (prefRec k r).variable_name) &&
            ((prefRec k r).data.length == shapeProd (prefRec k r).shape)) = true := by
          rw [hfresh_eq]
          exact hg
        have hins : insertPath vs.length N (splitSlash (prefRec k r).variable_name) =
            odSet N k (.sub (insertPath vs.length t (splitSlash r.variable_name))) := by
          rw [hsplit, hp]
          rcases hcase with hsub | ⟨hnone, ht, _⟩
          · simp [insertPath, hsub]
          · subst ht
            simp [insertPath, hnone]
        simp only [List.map_cons, rebuildRecs, hg', if_pos, hg]
        rw [hins]
        have ih := rebuildRecs_under k hk rest
          (odSet N k (.sub (insertPath vs.length t (splitSlash r.variable_name))))
          (insertPath vs.length t (splitSlash r.variable_name))
          (vs ++ [⟨r.shape, r.need_grad, bs.length⟩]) (bs ++ [r.data])
          (Or.inl (odGet_odSet_eq _ _ _))
        rw [show (prefRec k r).shape = r.shape from rfl,
          show (prefRec k r).need_grad = r.need_grad from rfl,
          show (prefRec k r).data = r.data from rfl]
        rw [ih]
        simp [odSet_odSet]
      · have hg' : ¬ (freshLeafB N (splitSlash (prefRec k r).variable_name) &&
            ((prefRec k r).data.length == shapeProd (prefRec k r).shape)) = true := by
          rw [hfresh_eq]
          exact hg
        simp [rebuildRecs, hg, hg']

theorem specTraversal_length (vars : List Var) :
    ∀ (t : Node) (p : String),
      (specTraversal vars false t p).length = countParamsN t
  | [], _ => by simp [specTraversal, countParamsN]
  | (k, .par v) :: rest, p => by
      have ih := specTraversal_length vars rest p
      simp [specTraversal, countParamsN, countParamsE, ih]
      omega
  | (k, .sub t) :: rest, p => by
      have ih1 := specTraversal_length vars t (joinPath p k)
      have ih2 := specTraversal_length vars rest p
      simp [specTraversal, countParamsN, countParamsE, ih1, ih2]

theorem specTraversal_prefix (vars : List Var) (g : Bool) :
    ∀ (t : Node), wfNode t = true → ∀ (p : String), p ≠ "" →
      specTraversal vars g t p =
        (specTraversal vars g t "").map (fun kv => (p ++ "/" ++ kv.1, kv.2))
  | [], _, p, hp => by simp [specTraversal]
  | (k, .par v) :: rest, hwf, p, hp => by
      obtain ⟨hk, _, _, hrest⟩ := wfNode_cons hwf
      have ih := specTraversal_prefix vars g rest hrest p hp
      by_cases hφ : (!g || needGradOf vars v) = true
      · simp [specTraversal, hφ, ih, joinPath, hp]
      · simp [specTraversal, hφ, ih]
  | (k, .sub t) :: rest, hwf, p, hp => by
      obtain ⟨hk, _, hsub, hrest⟩ := wfNode_cons hwf
      have hwt : wfNode t = true := by simpa [wfEntry] using hsub
      have hkne : k ≠ "" := keyOk_ne_empty hk
      have hjoin : joinPath p k = p ++ "/" ++ k := by simp [joinPath, hp]
      have hjoin0 : joinPath "" k = k := by simp [joinPath]
      have hpkne : p ++ "/" ++ k ≠ "" := by
        intro hcon
        exact hkne (by
          have := congrArg String.data hcon
          simp [String.data_append] at this)
      have ih1 := specTraversal_prefix vars g t hwt (p ++ "/" ++ k) hpkne
      have ihk := specTraversal_prefix vars g t hwt k hkne
      have ih2 := specTraversal_prefix vars g rest hrest p hp
      simp only [specTraversal, hjoin, hjoin0, ih1, ihk, ih2, List.map_append,
        List.map_map]
      congr 1
      apply List.map_congr_left
      intro kv _
      simp [Function.comp, String.append_assoc]

theorem mkRec_pref (vs : List Var) (bs : List (List Int)) (k p : String) (v : Nat) :
    mkRec vs bs (k ++ "/" ++ p, v) = prefRec k (mkRec vs bs (p, v)) := by
  simp only [mkRec, prefRec, List.get?_eq_getElem?]
  cases h : vs[v]? <;> simp [h]

theorem newVars_map_pref (k : String) : ∀ (rs : List PbParam) (d : Nat),
    newVars d (rs.map (prefRec k)) = newVars d rs
  | [], _ => rfl
  | r :: rest, d => by
      simp [newVars, prefRec, newVars_map_pref k rest (d + 1)]

theorem map_data_pref (k : String) : ∀ (rs : List PbParam),
    (rs.map (prefRec k)).map (fun r => r.data) = rs.map (fun r => r.data)
  | [] => rfl
  | r :: rest => by simp [prefRec, map_data_pref k rest]

theorem rebuildRecs_cons_pos (nm : String) (sh : List Nat) (da : List Int) (ng : Bool)
    (rest : List PbParam) (n : Node) (vs : List Var) (bs : List (List Int))
    (h : (freshLeafB n (splitSlash nm) && (da.length == shapeProd sh)) = true) :
    rebuildRecs (⟨nm, sh, da, ng⟩ :: rest) n vs bs =
      rebuildRecs rest (insertPath vs.length n (splitSlash nm))
        (vs ++ [⟨sh, ng, bs.length⟩]) (bs ++ [da]) := by
  simp only [rebuildRecs]
  rw [if_pos h]

theorem rebuildRecs_spec (vs0 : List Var) (bs0 : List (List Int))
    (hv : varsOk vs0 bs0 = true) :
    ∀ (T : Node), wfNode T = true → vidsOkNode vs0.length T = true →
      ∀ (N : Node) (vs : List Var) (bs : List (List Int)),
        (∀ q ∈ T, odGet N q.1 = none) →
        rebuildRecs ((specTraversal vs0 false T "").map (mkRec vs0 bs0)) N vs bs =
          some (N ++ mirrorN vs.length T,
            vs ++ newVars bs.length ((specTraversal vs0 false T "").map (mkRec vs0 bs0)),
            bs ++ ((specTraversal vs0 false T "").map (mkRec vs0 bs0)).map
              (fun r => r.data))
  | [], _, _, N, vs, bs, _ => by
      simp [specTraversal, rebuildRecs, mirrorN, newVars]
  | (k, .par v) :: rest, hwf, hvid, N, vs, bs, habs => by
      obtain ⟨hk, hany, _, hrest⟩ := wfNode_cons hwf
      simp only [vidsOkNode, vidsOkEntry, Bool.and_eq_true, decide_eq_true_eq] at hvid
      obtain ⟨hvlt, hvrest⟩ := hvid
      obtain ⟨var, hvar⟩ : ∃ w, vs0.get? v = some w := ⟨_, List.get?_eq_get hvlt⟩
      have hmemv : var ∈ vs0 := List.get?_mem hvar
      simp only [varsOk] at hv
      have hok := List.all_eq_true.mp hv var hmemv
      simp only [Bool.and_eq_true, decide_eq_true_eq] at hok
      have hlen : (bufOf bs0 var.dataRef).length = shapeProd var.shape := hok.2
      have hsplitk : splitSlash k = [k] := splitSlash_no_slash (keyOk_no_slash hk)
      have hNk : odGet N k = none := habs (k, .par v) (List.mem_cons_self _ _)
      have hspec : specTraversal vs0 false ((k, .par v) :: rest) "" =
          (k, v) :: specTraversal vs0 false rest "" := by
        simp [specTraversal, joinPath]
      have hr : mkRec vs0 bs0 (k, v) =
          ⟨k, var.shape, bufOf bs0 var.dataRef, var.needGrad⟩ := by
        simp only [mkRec]
        rw [hvar]
      have hguard : (freshLeafB N (splitSlash k) &&
          ((bufOf bs0 var.dataRef).length == shapeProd var.shape)) = true := by
        simp [hsplitk, freshLeafB, hNk, hlen]
      have hstep := rebuildRecs_cons_pos k var.shape (bufOf bs0 var.dataRef) var.needGrad
        ((specTraversal vs0 false rest "").map (mkRec vs0 bs0)) N vs bs hguard
      have hins : insertPath vs.length N (splitSlash k) =
          N ++ [(k, Entry.par vs.length)] := by
        rw [hsplitk]
        simp only [insertPath]
        exact odSet_absent _ hNk
      have habs' : ∀ q ∈ rest, odGet (N ++ [(k, Entry.par vs.length)]) q.1 = none := by
        intro q hq
        have h1 : odGet N q.1 = none := habs q (List.mem_cons_of_mem _ hq)
        have h2 : q.1 ≠ k := by
          intro hcon
          have hbad : rest.any (fun p => p.1 == k) = true :=
            List.any_eq_true.mpr ⟨q, hq, by simp [hcon]⟩
          rw [hbad] at hany
          cases hany
        have h3 : k ≠ q.1 := fun hh => h2 hh.symm
        rw [odGet_append, h1]
        simp [odGet, h3]
      have ih := rebuildRecs_spec vs0 bs0 hv rest hrest hvrest
        (N ++ [(k, Entry.par vs.length)])
        (vs ++ [⟨var.shape, var.needGrad, bs.length⟩])
        (bs ++ [bufOf bs0 var.dataRef]) habs'
      rw [hspec, List.map_cons, hr, hstep, hins, ih]
      simp [mirrorN, newVars, List.append_assoc]
  | (k, .sub t) :: rest, hwf, hvid, N, vs, bs, habs => by
      obtain ⟨hk, hany, hsubwf, hrest⟩ := wfNode_cons hwf
      have hwt : wfNode t = true := by simpa [wfEntry] using hsubwf
      simp only [vidsOkNode, vidsOkEntry, Bool.and_eq_true] at hvid
      obtain ⟨hvt, hvrest⟩ := hvid
      have hNk : odGet N k = none := habs _ (List.mem_cons_self _ _)
      have hkne : k ≠ "" := keyOk_ne_empty hk
      have hksl : ('/' : Char) ∉ k.data := keyOk_no_slash hk
      have hjoin0 : joinPath "" k = k := by simp [joinPath]
      have hspec : specTraversal vs0 false ((k, .sub t) :: rest) "" =
          specTraversal vs0 false t k ++ specTraversal vs0 false rest "" := by
        simp [specTraversal, hjoin0]
      have hpref : specTraversal vs0 false t k =
          (specTraversal vs0 false t "").map (fun kv => (k ++ "/" ++ kv.1, kv.2)) :=
        specTraversal_prefix vs0 false t hwt k hkne
      have hmapped : (specTraversal vs0 false t k).map (mkRec vs0 bs0) =
          ((specTraversal vs0 false t "").map (mkRec vs0 bs0)).map (prefRec k) := by
        rw [hpref, List.map_map, List.map_map]
        apply List.map_congr_left
        intro kv _
        exact mkRec_pref vs0 bs0 k kv.1 kv.2
      have hlent : (specTraversal vs0 false t "").length = countParamsN t :=
        specTraversal_length vs0 t ""
      by_cases hc : countParamsN t = 0
      · have hnil : specTraversal vs0 false t "" = [] :=
          List.eq_nil_of_length_eq_zero (by rw [hlent]; exact hc)
        have habs' : ∀ q ∈ rest, odGet N q.1 = none :=
          fun q hq => habs q (List.mem_cons_of_mem _ hq)
        have ih := rebuildRecs_spec vs0 bs0 hv rest hrest hvrest N vs bs habs'
        rw [hspec, List.map_append, hmapped, hnil]
        simp only [List.map_nil, List.nil_append]
        rw [ih]
        simp [mirrorN, hc]
      · have hne : ((specTraversal vs0 false t "").map (mkRec vs0 bs0)) ≠ [] := by
          intro hcon
          have hlc := congrArg List.length hcon
          simp [hlent] at hlc
          exact hc hlc
        have ih_t := rebuildRecs_spec vs0 bs0 hv t hwt hvt [] vs bs
          (by intro q _; rfl)
        have hunder := rebuildRecs_under k hksl
          ((specTraversal vs0 false t "").map (mkRec vs0 bs0)) N [] vs bs
          (Or.inr ⟨hNk, rfl, hne⟩)
        have hodset : odSet N k (Entry.sub (mirrorN vs.length t)) =
            N ++ [(k, Entry.sub (mirrorN vs.length t))] := odSet_absent _ hNk
        have habs' : ∀ q ∈ rest,
            odGet (N ++ [(k, Entry.sub (mirrorN vs.length t))]) q.1 = none := by
          intro q hq
          have h1 : odGet N q.1 = none := habs q (List.mem_cons_of_mem _ hq)
          have h2 : q.1 ≠ k := by
            intro hcon
            have hbad : rest.any (fun p => p.1 == k) = true :=
              List.any_eq_true.mpr ⟨q, hq, by simp [hcon]⟩
            rw [hbad] at hany
            cases hany
          have h3 : k ≠ q.1 := fun hh => h2 hh.symm
          rw [odGet_append, h1]
          simp [odGet, h3]
        have ih_r := rebuildRecs_spec vs0 bs0 hv rest hrest hvrest
          (N ++ [(k, Entry.sub (mirrorN vs.length t))])
          (vs ++ newVars bs.length ((specTraversal vs0 false t "").map (mkRec vs0 bs0)))
          (bs ++ ((specTraversal vs0 false t "").map (mkRec vs0 bs0)).map
            (fun r => r.data)) habs'
        rw [hspec, List.map_append, hmapped, rebuildRecs_append, hunder, ih_t]
        simp only [List.nil_append, Option.map_some', Option.some_bind]
        rw [hodset, ih_r]
        simp [mirrorN, hc, newVars_append, newVars_map_pref, map_data_pref,
          newVars_length, hlent, List.append_assoc]
        constructor
        · rw [show List.map (prefRec k ∘ mkRec vs0 bs0) (specTraversal vs0 false t "") =
              List.map (prefRec k)
                (List.map (mkRec vs0 bs0) (specTraversal vs0 false t "")) from
              (List.map_map _ _ _).symm]
          rw [newVars_map_pref]
        · intro a b _
          rfl

theorem mirrorN_keys : ∀ (T : Node) (b : Nat) (q : String × Entry),
    q ∈ mirrorN b T → ∃ e, (q.1, e) ∈ T
  | [], b, q, hq => by simp [mirrorN] at hq
  | (k, .par v) :: rest, b, q, hq => by
      simp only [mirrorN] at hq
      rcases List.mem_cons.mp hq with h1 | h2
      · subst h1
        exact ⟨.par v, List.mem_cons_self _ _⟩
      · obtain ⟨e, he⟩ := mirrorN_keys rest (b + 1) q h2
        exact ⟨e, List.mem_cons_of_mem _ he⟩
  | (k, .sub t) :: rest, b, q, hq => by
      simp only [mirrorN] at hq
      by_cases hc : countParamsN t = 0
      · rw [if_pos hc] at hq
        obtain ⟨e, he⟩ := mirrorN_keys rest b q hq
        exact ⟨e, List.mem_cons_of_mem _ he⟩
      · rw [if_neg hc] at hq
        rcases List.mem_cons.mp hq with h1 | h2
        · subst h1
          exact ⟨.sub t, List.mem_cons_self _ _⟩
        · obtain ⟨e, he⟩ := mirrorN_keys rest (b + countParamsN t) q h2
          exact ⟨e, List.mem_cons_of_mem _ he⟩

theorem mirrorN_any_key (T : Node) (b : Nat) (k : String)
    (h : T.any (fun p => p.1 == k) = false) :
    (mirrorN b T).any (fun p => p.1 == k) = false := by
  by_contra hcon
  rw [Bool.not_eq_false] at hcon
  obtain ⟨q, hq, hqk⟩ := List.any_eq_true.mp hcon
  obtain ⟨e, he⟩ := mirrorN_keys T b q hq
  have hbad : T.any (fun p => p.1 == k) = true :=
    List.any_eq_true.mpr ⟨(q.1, e), he, hqk⟩
  rw [hbad] at h
  cases h

theorem mirrorN_wf : ∀ (T : Node) (b : Nat), wfNode T = true →
    wfNode (mirrorN b T) = true
  | [], _, _ => by simp [mirrorN, wfNode]
  | (k, .par v) :: rest, b, hwf => by
      obtain ⟨hk, hany, _, hrest⟩ := wfNode_cons hwf
      have ih := mirrorN_wf rest (b + 1) hrest
      have hany' := mirrorN_any_key rest (b + 1) k hany
      simp [mirrorN, wfNode, hk, hany', wfEntry, ih]
  | (k, .sub t) :: rest, b, hwf => by
      obtain ⟨hk, hany, hsub, hrest⟩ := wfNode_cons hwf
      have hwt : wfNode t = true := by simpa [wfEntry] using hsub
      by_cases hc : countParamsN t = 0
      · have ih := mirrorN_wf rest b hrest
        simp [mirrorN, hc, ih]
      · have iht := mirrorN_wf t b hwt
        have ihr := mirrorN_wf rest (b + countParamsN t) hrest
        have hany' := mirrorN_any_key rest (b + countParamsN t) k hany
        simp [mirrorN, hc, wfNode, hk, hany', wfEntry, iht, ihr]

theorem mirrorN_observe (vs0 V2 : List Var) (bs0 B2 : List (List Int)) :
    ∀ (T : Node) (b d : Nat), wfNode T = true → vidsOkNode vs0.length T = true →
      (∀ i, i < countParamsN T →
        ∃ r, ((specTraversal vs0 false T "").map (mkRec vs0 bs0)).get? i = some r ∧
          V2.get? (b + i) = some ⟨r.shape, r.need_grad, d + i⟩ ∧
          B2.get? (d + i) = some r.data) →
      ∀ (p : String),
        (specTraversal V2 false (mirrorN b T) p).map (mkRec V2 B2) =
          (specTraversal vs0 false T p).map (mkRec vs0 bs0)
  | [], b, d, _, _, _, p => by simp [mirrorN, specTraversal]
  | (k, .par v) :: rest, b, d, hwf, hvid, hyp, p => by
      obtain ⟨hk, hany, _, hrest⟩ := wfNode_cons hwf
      simp only [vidsOkNode, vidsOkEntry, Bool.and_eq_true, decide_eq_true_eq] at hvid
      obtain ⟨hvlt, hvrest⟩ := hvid
      obtain ⟨var, hvar⟩ : ∃ w, vs0.get? v = some w := ⟨_, List.get?_eq_get hvlt⟩
      have hspec : specTraversal vs0 false ((k, .par v) :: rest) "" =
          (k, v) :: specTraversal vs0 false rest "" := by
        simp [specTraversal, joinPath]
      have hcnt : 0 < countParamsN ((k, .par v) :: rest) := by
        simp [countParamsN, countParamsE]
      obtain ⟨r, hr0, hrv, hrb⟩ := hyp 0 hcnt
      rw [hspec, List.map_cons, List.get?_cons_zero] at hr0
      injection hr0 with hreq
      subst hreq
      simp only [Nat.add_zero] at hrv hrb
      have hrfields : mkRec vs0 bs0 (k, v) =
          ⟨k, var.shape, bufOf bs0 var.dataRef, var.needGrad⟩ := by
        simp only [mkRec]
        rw [hvar]
      simp only [hrfields] at hrv hrb
      have hyp' : ∀ i, i < countParamsN rest →
          ∃ r, ((specTraversal vs0 false rest "").map (mkRec vs0 bs0)).get? i = some r ∧
            V2.get? (b + 1 + i) = some ⟨r.shape, r.need_grad, d + 1 + i⟩ ∧
            B2.get? (d + 1 + i) = some r.data := by
        intro i hi
        have hlt : i + 1 < countParamsN ((k, .par v) :: rest) := by
          simp only [countParamsN, countParamsE]
          omega
        obtain ⟨r, h1, h2, h3⟩ := hyp (i + 1) hlt
        rw [hspec, List.map_cons, List.get?_cons_succ] at h1
        refine ⟨r, h1, ?_, ?_⟩
        · rw [show b + 1 + i = b + (i + 1) from by omega,
            show d + 1 + i = d + (i + 1) from by omega]
          exact h2
        · rw [show d + 1 + i = d + (i + 1) from by omega]
          exact h3
      have hmirr : mirrorN b ((k, Entry.par v) :: rest) =
          (k, Entry.par b) :: mirrorN (b + 1) rest := by
        simp [mirrorN]
      rw [hmirr]
      have hL : specTraversal V2 false ((k, Entry.par b) :: mirrorN (b + 1) rest) p =
          (joinPath p k, b) :: specTraversal V2 false (mirrorN (b + 1) rest) p := by
        simp [specTraversal]
      have hR : specTraversal vs0 false ((k, Entry.par v) :: rest) p =
          (joinPath p k, v) :: specTraversal vs0 false rest p := by
        simp [specTraversal]
      rw [hL, hR, List.map_cons, List.map_cons]
      congr 1
      · simp only [mkRec]
        rw [hrv, hvar]
        rw [List.get?_eq_getElem?] at hrb
        simp [bufOf, hrb, List.get?_eq_getElem?]
      · exact mirrorN_observe vs0 V2 bs0 B2 rest (b + 1) (d + 1) hrest hvrest hyp' p
  | (k, .sub t) :: rest, b, d, hwf, hvid, hyp, p => by
      obtain ⟨hk, hany, hsubwf, hrest⟩ := wfNode_cons hwf
      have hwt : wfNode t = true := by simpa [wfEntry] using hsubwf
      have hkne : k ≠ "" := keyOk_ne_empty hk
      simp only [vidsOkNode, vidsOkEntry, Bool.and_eq_true] at hvid
      obtain ⟨hvt, hvrest⟩ := hvid
      have hlent : (specTraversal vs0 false t "").length = countParamsN t :=
        specTraversal_length vs0 t ""
      have hspec0 : specTraversal vs0 false ((k, Entry.sub t) :: rest) "" =
          specTraversal vs0 false t k ++ specTraversal vs0 false rest "" := by
        simp [specTraversal, joinPath]
      have hpref : specTraversal vs0 false t k =
          (specTraversal vs0 false t "").map (fun kv => (k ++ "/" ++ kv.1, kv.2)) :=
        specTraversal_prefix vs0 false t hwt k hkne
      have hmapped : (specTraversal vs0 false t k).map (mkRec vs0 bs0) =
          ((specTraversal vs0 false t "").map (mkRec vs0 bs0)).map (prefRec k) := by
        rw [hpref, List.map_map, List.map_map]
        apply List.map_congr_left
        intro kv _
        exact mkRec_pref vs0 bs0 k kv.1 kv.2
      have hlenmap :
          (((specTraversal vs0 false t "").map (mkRec vs0 bs0)).map (prefRec k)).length =
            countParamsN t := by
        simp [hlent]
      have hyp_t : ∀ i, i < countParamsN t →
          ∃ r, ((specTraversal vs0 false t "").map (mkRec vs0 bs0)).get? i = some r ∧
            V2.get? (b + i) = some ⟨r.shape, r.need_grad, d + i⟩ ∧
            B2.get? (d + i) = some r.data := by
        intro i hi
        have hitot : i < countParamsN ((k, Entry.sub t) :: rest) := by
          simp only [countParamsN, countParamsE]
          omega
        obtain ⟨r', h1, h2, h3⟩ := hyp i hitot
        rw [hspec0, List.map_append, hmapped] at h1
        rw [List.get?_append (by rw [hlenmap]; omega)] at h1
        rw [List.get?_map] at h1
        cases hrt : ((specTraversal vs0 false t "").map (mkRec vs0 bs0)).get? i with
        | none =>
            rw [hrt] at h1
            cases h1
        | some r'' =>
            rw [hrt] at h1
            simp only [Option.map_some'] at h1
            injection h1 with h1'
            refine ⟨r'', rfl, ?_, ?_⟩
            · rw [← h1'] at h2
              exact h2
            · rw [← h1'] at h3
              exact h3
      have hyp_r : ∀ i, i < countParamsN rest →
          ∃ r, ((specTraversal vs0 false rest "").map (mkRec vs0 bs0)).get? i = some r ∧
            V2.get? (b + countParamsN t + i) =
              some ⟨r.shape, r.need_grad, d + countParamsN t + i⟩ ∧
            B2.get? (d + countParamsN t + i) = some r.data := by
        intro i hi
        have hitot : countParamsN t + i < countParamsN ((k, Entry.sub t) :: rest) := by
          simp only [countParamsN, countParamsE]
          omega
        obtain ⟨r', h1, h2, h3⟩ := hyp (countParamsN t + i) hitot
        rw [hspec0, List.map_append, hmapped] at h1
        rw [List.get?_append_right (by rw [hlenmap]; omega)] at h1
        rw [hlenmap] at h1
        rw [show countParamsN t + i - countParamsN t = i from by omega] at h1
        refine ⟨r', h1, ?_, ?_⟩
        · rw [show b + countParamsN t + i = b + (countParamsN t + i) from by omega,
            show d + countParamsN t + i = d + (countParamsN t + i) from by omega]
          exact h2
        · rw [show d + countParamsN t + i = d + (countParamsN t + i) from by omega]
          exact h3
      by_cases hc : countParamsN t = 0
      · have hmirr : mirrorN b ((k, Entry.sub t) :: rest) = mirrorN b rest := by
          simp [mirrorN, hc]
        have hnil : specTraversal vs0 false t (joinPath p k) = [] :=
          List.eq_nil_of_length_eq_zero (by rw [specTraversal_length]; exact hc)
        simp only [hc, Nat.add_zero] at hyp_r
        rw [hmirr]
        have hR : specTraversal vs0 false ((k, Entry.sub t) :: rest) p =
            specTraversal vs0 false rest p := by
          simp [specTraversal, hnil]
        rw [hR]
        exact mirrorN_observe vs0 V2 bs0 B2 rest b d hrest hvrest hyp_r p
      · have hmirr : mirrorN b ((k, Entry.sub t) :: rest) =
            (k, Entry.sub (mirrorN b t)) :: mirrorN (b + countParamsN t) rest := by
          simp [mirrorN, hc]
        rw [hmirr]
        have hL : specTraversal V2 false
            ((k, Entry.sub (mirrorN b t)) :: mirrorN (b + countParamsN t) rest) p =
            specTraversal V2 false (mirrorN b t) (joinPath p k) ++
              specTraversal V2 false (mirrorN (b + countParamsN t) rest) p := by
          simp [specTraversal]
        have hR : specTraversal vs0 false ((k, Entry.sub t) :: rest) p =
            specTraversal vs0 false t (joinPath p k) ++
              specTraversal vs0 false rest p := by
          simp [specTraversal]
        rw [hL, hR, List.map_append, List.map_append]
        congr 1
        · exact mirrorN_observe vs0 V2 bs0 B2 t b d hwt hvt hyp_t (joinPath p k)
        · exact mirrorN_observe vs0 V2 bs0 B2 rest (b + countParamsN t)
            (d + countParamsN t) hrest hvrest hyp_r p

theorem observe_mirror (s : PState) (T : Node)
    (hT : lookupNode s.root s.cur = some T)
    (hwfT : wfNode T = true)
    (hvidsT : vidsOkNode s.vars.length T = true) :
    observe { s with
      root := updateNode (updateNode s.root s.cur (fun _ => [])) s.cur
        (fun _ => mirrorN s.vars.length T),
      vars := s.vars ++ newVars s.bufs.length
        ((specTraversal s.vars false T "").map (mkRec s.vars s.bufs)),
      bufs := s.bufs ++
        ((specTraversal s.vars false T "").map (mkRec s.vars s.bufs)).map
          (fun r => r.data) } = observe s := by
  have hcn : curNode s = T := by simp [curNode, hT]
  have hcur1 : lookupNode (updateNode s.root s.cur (fun _ => ([] : Node))) s.cur =
      some ([] : Node) := lookupNode_updateNode_self (fun _ => []) hT
  have hcur2 : lookupNode (updateNode (updateNode s.root s.cur (fun _ => ([] : Node)))
      s.cur (fun _ => mirrorN s.vars.length T)) s.cur =
      some (mirrorN s.vars.length T) :=
    lookupNode_updateNode_self _ hcur1
  have hcnF : curNode { s with
      root := updateNode (updateNode s.root s.cur (fun _ => [])) s.cur
        (fun _ => mirrorN s.vars.length T),
      vars := s.vars ++ newVars s.bufs.length
        ((specTraversal s.vars false T "").map (mkRec s.vars s.bufs)),
      bufs := s.bufs ++
        ((specTraversal s.vars false T "").map (mkRec s.vars s.bufs)).map
          (fun r => r.data) } = mirrorN s.vars.length T := by
    simp [curNode, hcur2]
  have hwfM : wfNode (mirrorN s.vars.length T) = true := mirrorN_wf T s.vars.length hwfT
  have hrslen : ((specTraversal s.vars false T "").map (mkRec s.vars s.bufs)).length =
      countParamsN T := by
    simp [specTraversal_length]
  have hyp : ∀ i, i < countParamsN T →
      ∃ r, ((specTraversal s.vars false T "").map (mkRec s.vars s.bufs)).get? i = some r ∧
        (s.vars ++ newVars s.bufs.length
          ((specTraversal s.vars false T "").map (mkRec s.vars s.bufs))).get?
            (s.vars.length + i) = some ⟨r.shape, r.need_grad, s.bufs.length + i⟩ ∧
        (s.bufs ++ ((specTraversal s.vars false T "").map (mkRec s.vars s.bufs)).map
          (fun r => r.data)).get? (s.bufs.length + i) = some r.data := by
    intro i hi
    have hilt : i < ((specTraversal s.vars false T "").map (mkRec s.vars s.bufs)).length := by
      rw [hrslen]
      exact hi
    refine ⟨_, List.get?_eq_get hilt, ?_, ?_⟩
    · rw [List.get?_append_right (by omega)]
      rw [show s.vars.length + i - s.vars.length = i from by omega]
      rw [newVars_get?]
      rw [List.get?_eq_get hilt]
      rfl
    · rw [List.get?_append_right (by omega)]
      rw [show s.bufs.length + i - s.bufs.length = i from by omega]
      rw [List.get?_map]
      rw [List.get?_eq_get hilt]
      rfl
  have hget2 := get_parameters_spec false (by rw [hcnF]; exact hwfM)
  have hgets := get_parameters_spec false (by rw [hcn]; exact hwfT)
  simp only [observe, hget2, hgets]
  rw [hcnF, hcn]
  exact mirrorN_observe s.vars _ s.bufs _ T s.vars.length s.bufs.length hwfT hvidsT hyp ""

theorem roundTrip_pb_observe (path : String) (s : PState)
    (hext : splitextExt path = ".protobuf") (hwf : wfSt s = true) :
    ∃ s2, roundTrip path s = some s2 ∧ observe s2 = observe s := by
  simp only [wfSt, Bool.and_eq_true] at hwf
  obtain ⟨⟨⟨hsome, hwfn⟩, hvids⟩, hvars⟩ := hwf
  obtain ⟨T, hT⟩ := Option.isSome_iff_exists.mp hsome
  have hcn : curNode s = T := by simp [curNode, hT]
  have hwfT : wfNode T = true := by rw [← hcn]; exact hwfn
  have hvidsT : vidsOkNode s.vars.length T = true := by rw [← hcn]; exact hvids
  have hget : get_parameters false s = .ok (specTraversal s.vars false T "") s := by
    rw [get_parameters_spec false hwfn, hcn]
  have hsave : save_parameters path s =
      .ok (SavedFile.pb ((specTraversal s.vars false T "").map (mkRec s.vars s.bufs))) s := by
    simp [save_parameters, hget, hext]
  have hcur1 : lookupNode (updateNode s.root s.cur (fun _ => ([] : Node))) s.cur =
      some ([] : Node) := lookupNode_updateNode_self (fun _ => []) hT
  have hreb := rebuildRecs_spec s.vars s.bufs hvars T hwfT hvidsT [] s.vars s.bufs
    (fun q _ => rfl)
  simp only [List.nil_append] at hreb
  have hload := @loadPbLoop_rebuild
    ((specTraversal s.vars false T "").map (mkRec s.vars s.bufs))
    { s with root := updateNode s.root s.cur (fun _ => []) } [] _ _ _ hcur1 hreb
  have hloadp : load_parameters path
      (SavedFile.pb ((specTraversal s.vars false T "").map (mkRec s.vars s.bufs))) none
      { s with root := updateNode s.root s.cur (fun _ => []) } =
      .ok ((specTraversal s.vars false T "").map (mkRec s.vars s.bufs))
        { s with
          root := updateNode (updateNode s.root s.cur (fun _ => [])) s.cur
            (fun _ => mirrorN s.vars.length T),
          vars := s.vars ++ newVars s.bufs.length
            ((specTraversal s.vars false T "").map (mkRec s.vars s.bufs)),
          bufs := s.bufs ++
            ((specTraversal s.vars false T "").map (mkRec s.vars s.bufs)).map
              (fun r => r.data) } := by
    simp [load_parameters, hext, hload]
  refine ⟨_, ?_, observe_mirror s T hT hwfT hvidsT⟩
  simp only [roundTrip, hsave, clear_parameters]
  rw [hloadp]

theorem bufOf_concat {l : List (List Int)} {x : List Int} :
    bufOf (l ++ [x]) l.length = x := by
  simp [bufOf, List.get?_concat_length]

theorem mkH5Entry_index (vars : List Var) (bufs : List (List Int))
    (iv : Nat × (String × Nat)) : (mkH5Entry vars bufs iv).index = some iv.1 := by
  simp only [mkH5Entry, List.get?_eq_getElem?]
  cases h : vars[iv.2.2]? <;> simp [h]

theorem mkH5Entry_key (vars : List Var) (bufs : List (List Int))
    (iv : Nat × (String × Nat)) : (mkH5Entry vars bufs iv).key = iv.2.1 := by
  simp only [mkH5Entry, List.get?_eq_getElem?]
  cases h : vars[iv.2.2]? <;> simp [h]

theorem toPb_mkH5Entry (vars : List Var) (bufs : List (List Int))
    (iv : Nat × (String × Nat)) : toPb (mkH5Entry vars bufs iv) = mkRec vars bufs iv.2 := by
  simp only [toPb, mkH5Entry, mkRec, List.get?_eq_getElem?]
  cases h : vars[iv.2.2]? <;> simp [h]

theorem enumFrom_map_snd {α β : Type} (g : α → β) :
    ∀ (l : List α) (i : Nat), (enumFrom i l).map (fun p => g p.2) = l.map g
  | [], _ => rfl
  | x :: rest, i => by simp [enumFrom, enumFrom_map_snd g rest (i + 1)]

theorem enumFrom_keys_chain {α : Type} (f : α → String) :
    ∀ (l : List α) (i : Nat),
      List.Chain' (fun a b => keyLt a b = true)
        ((enumFrom i l).map (fun p => (some p.1, f p.2)))
  | [], _ => List.chain'_nil
  | [x], i => by simp [enumFrom]
  | x :: y :: rest, i => by
      have ih := enumFrom_keys_chain f (y :: rest) (i + 1)
      simp only [enumFrom, List.map_cons] at ih ⊢
      refine List.chain'_cons.mpr ⟨?_, ih⟩
      simp [keyLt]

theorem insSorted_lt_head {α : Type} (lt : α → α → Bool) (x y : α) (ys : List α)
    (h : lt x y = true) : insSorted lt x (y :: ys) = x :: y :: ys := by
  simp [insSorted, h]

theorem isort_chain {α : Type} (lt : α → α → Bool) :
    ∀ (l : List α), List.Chain' (fun a b => lt a b = true) l → isort lt l = l
  | [], _ => rfl
  | [x], _ => by simp [isort, insSorted]
  | x :: y :: rest, h => by
      obtain ⟨hxy, hrest⟩ := List.chain'_cons.mp h
      have ih := isort_chain lt (y :: rest) hrest
      simp only [isort] at ih ⊢
      rw [ih, insSorted_lt_head lt x y rest hxy]

theorem h5find_nodup : ∀ (l : List H5Entry), ((l.map (fun e => e.key)).Nodup) →
    ∀ e ∈ l, h5find l e.key = some e
  | [], _, e, he => absurd he (List.not_mem_nil e)
  | x :: rest, hnd, e, he => by
      simp only [List.map_cons, List.nodup_cons] at hnd
      obtain ⟨hx, hrest⟩ := hnd
      rcases List.mem_cons.mp he with h1 | h2
      · subst h1
        simp [h5find]
      · have hne : x.key ≠ e.key := by
          intro hcon
          apply hx
          rw [hcon]
          exact List.mem_map.mpr ⟨e, h2, rfl⟩
        have ih := h5find_nodup rest hrest e h2
        simp [h5find, hne, ih]

theorem loadH5Loop_rebuild (file : List H5Entry) :
    ∀ (el : List H5Entry) (proto : List PbParam) {s : PState} {N N' : Node}
      {V' : List Var} {B' : List (List Int)},
      (∀ e ∈ el, h5find file e.key = some e) →
      lookupNode s.root s.cur = some N →
      rebuildRecs (el.map toPb) N s.vars s.bufs = some (N', V', B') →
      ∃ proto', loadH5Loop file (el.map (fun e => (e.index, e.key))) proto s =
        .ok proto'
          { s with
            root := updateNode s.root s.cur (fun _ => N'),
            vars := V',
            bufs := B' }
  | [], proto, s, N, N', V', B', _, hcur, hreb => by
      simp only [List.map_nil, rebuildRecs] at hreb
      injection hreb with h
      injection h with h1 h23
      injection h23 with h2 h3
      subst h1
      subst h2
      subst h3
      refine ⟨proto, ?_⟩
      simp only [List.map_nil, loadH5Loop]
      rw [show updateNode s.root s.cur (fun _ => N) = s.root from updateNode_noop hcur rfl]
  | e :: rest, proto, s, N, N', V', B', hfind, hcur, hreb => by
      have hfe : h5find file e.key = some e := hfind e (List.mem_cons_self _ _)
      simp only [List.map_cons, rebuildRecs] at hreb
      by_cases hg : (freshLeafB N (splitSlash (toPb e).variable_name) &&
          ((toPb e).data.length == shapeProd (toPb e).shape)) = true
      · rw [if_pos hg] at hreb
        have hfresh : freshLeafB N (splitSlash e.key) = true :=
          ((Bool.and_eq_true ..).mp hg).1
        have hlen : e.data.length = shapeProd e.shape :=
          eq_of_beq ((Bool.and_eq_true ..).mp hg).2
        have hgp := gpoc_create (splitSlash e.key) e.shape none e.need_grad hcur hfresh
        have hv1 : ((s.vars ++ [(⟨e.shape, e.need_grad, s.bufs.length⟩ : Var)])).get?
            s.vars.length = some ⟨e.shape, e.need_grad, s.bufs.length⟩ :=
          List.get?_concat_length _ _
        have hsd := @setVarData_eq { s with
          root := updateNode s.root s.cur
            (fun m => insertPath s.vars.length m (splitSlash e.key)),
          vars := s.vars ++ [⟨e.shape, e.need_grad, s.bufs.length⟩],
          bufs := s.bufs ++ [bufInit none e.shape] } s.vars.length
          ⟨e.shape, e.need_grad, s.bufs.length⟩ hv1 e.data
        have hbs : (s.bufs ++ [bufInit none e.shape]).set s.bufs.length e.data =
            s.bufs ++ [e.data] := set_concat _ _ _
        have hcur2 : lookupNode
            (updateNode s.root s.cur
              (fun m => insertPath s.vars.length m (splitSlash e.key))) s.cur =
            some (insertPath s.vars.length N (splitSlash e.key)) :=
          lookupNode_updateNode_self _ hcur
        have hreb2 : rebuildRecs (rest.map toPb)
            (insertPath s.vars.length N (splitSlash e.key))
            (s.vars ++ [⟨e.shape, e.need_grad, s.bufs.length⟩])
            (s.bufs ++ [e.data]) = some (N', V', B') := hreb
        have hfind' : ∀ x ∈ rest, h5find file x.key = some x :=
          fun x hx => hfind x (List.mem_cons_of_mem _ hx)
        obtain ⟨proto'', ih⟩ := @loadH5Loop_rebuild file rest
          (proto ++ [⟨e.key, e.shape, e.data, e.need_grad⟩])
          { s with
            root := updateNode s.root s.cur
              (fun m => insertPath s.vars.length m (splitSlash e.key)),
            vars := s.vars ++ [⟨e.shape, e.need_grad, s.bufs.length⟩],
            bufs := s.bufs ++ [e.data] } _ _ _ _ hfind' hcur2 hreb2
        refine ⟨proto'', ?_⟩
        simp only [List.map_cons, loadH5Loop, hfe, hgp, hlen, if_pos]
        rw [hsd]
        simp only [hbs, hv1, bufOf_concat]
        rw [ih]
        rw [updateNode_comp]
      · rw [if_neg hg] at hreb
        cases hreb

theorem roundTrip_h5_observe (path : String) (s : PState)
    (hext : splitextExt path = ".h5") (hwf : wfSt s = true) :
    ∃ s2, roundTrip path s = some s2 ∧ observe s2 = observe s := by
  simp only [wfSt, Bool.and_eq_true] at hwf
  obtain ⟨⟨⟨hsome, hwfn⟩, hvids⟩, hvars⟩ := hwf
  obtain ⟨T, hT⟩ := Option.isSome_iff_exists.mp hsome
  have hcn : curNode s = T := by simp [curNode, hT]
  have hwfT : wfNode T = true := by rw [← hcn]; exact hwfn
  have hvidsT : vidsOkNode s.vars.length T = true := by rw [← hcn]; exact hvids
  have hget : get_parameters false s = .ok (specTraversal s.vars false T "") s := by
    rw [get_parameters_spec false hwfn, hcn]
  have hsave : save_parameters path s =
      .ok (SavedFile.h5 ((enumFrom 0 (specTraversal s.vars false T "")).map
        (mkH5Entry s.vars s.bufs))) s := by
    simp [save_parameters, hget, hext]
  have hcur1 : lookupNode (updateNode s.root s.cur (fun _ => ([] : Node))) s.cur =
      some ([] : Node) := lookupNode_updateNode_self (fun _ => []) hT
  have htopb : ((enumFrom 0 (specTraversal s.vars false T "")).map
      (mkH5Entry s.vars s.bufs)).map toPb =
      (specTraversal s.vars false T "").map (mkRec s.vars s.bufs) := by
    rw [List.map_map]
    rw [show (toPb ∘ mkH5Entry s.vars s.bufs) =
        (fun p : Nat × (String × Nat) => mkRec s.vars s.bufs p.2) from by
      funext iv
      simp [Function.comp, toPb_mkH5Entry]]
    rw [enumFrom_map_snd]
  have hreb := rebuildRecs_spec s.vars s.bufs hvars T hwfT hvidsT [] s.vars s.bufs
    (fun q _ => rfl)
  simp only [List.nil_append] at hreb
  have hrebE : rebuildRecs (((enumFrom 0 (specTraversal s.vars false T "")).map
      (mkH5Entry s.vars s.bufs)).map toPb) [] s.vars s.bufs =
      some (mirrorN s.vars.length T,
        s.vars ++ newVars s.bufs.length
          ((specTraversal s.vars false T "").map (mkRec s.vars s.bufs)),
        s.bufs ++ ((specTraversal s.vars false T "").map (mkRec s.vars s.bufs)).map
          (fun r => r.data)) := by
    rw [htopb]
    exact hreb
  have hnodup0 : ((specTraversal s.vars false T "").map Prod.fst).Nodup :=
    specTraversal_keys_nodup hwfT
  have hkeyeq : ((enumFrom 0 (specTraversal s.vars false T "")).map
      (mkH5Entry s.vars s.bufs)).map (fun e => e.key) =
      (specTraversal s.vars false T "").map Prod.fst := by
    rw [List.map_map]
    rw [show ((fun e : H5Entry => e.key) ∘ mkH5Entry s.vars s.bufs) =
        (fun p : Nat × (String × Nat) => (fun kv : String × Nat => kv.1) p.2) from by
      funext iv
      simp [Function.comp, mkH5Entry_key]]
    rw [enumFrom_map_snd]
  have hfindAll : ∀ e ∈ (enumFrom 0 (specTraversal s.vars false T "")).map
      (mkH5Entry s.vars s.bufs),
      h5find ((enumFrom 0 (specTraversal s.vars false T "")).map
        (mkH5Entry s.vars s.bufs)) e.key = some e :=
    h5find_nodup _ (by rw [hkeyeq]; exact hnodup0)
  obtain ⟨proto', hloop⟩ := @loadH5Loop_rebuild
    ((enumFrom 0 (specTraversal s.vars false T "")).map (mkH5Entry s.vars s.bufs))
    ((enumFrom 0 (specTraversal s.vars false T "")).map (mkH5Entry s.vars s.bufs))
    [] { s with root := updateNode s.root s.cur (fun _ => []) } [] _ _ _
    hfindAll hcur1 hrebE
  have hchain := enumFrom_keys_chain (fun kv : String × Nat => kv.1)
    (specTraversal s.vars false T "") 0
  have hkeys : ((enumFrom 0 (specTraversal s.vars false T "")).map
      (mkH5Entry s.vars s.bufs)).map (fun e => (e.index, e.key)) =
      (enumFrom 0 (specTraversal s.vars false T "")).map
        (fun p => ((some p.1 : Option Nat), p.2.1)) := by
    rw [List.map_map]
    apply List.map_congr_left
    intro iv _
    simp [Function.comp, mkH5Entry_index, mkH5Entry_key]
  have hsort : isort keyLt ((enumFrom 0 (specTraversal s.vars false T "")).map
      (fun p => ((some p.1 : Option Nat), p.2.1))) =
      (enumFrom 0 (specTraversal s.vars false T "")).map
        (fun p => ((some p.1 : Option Nat), p.2.1)) :=
    isort_chain keyLt _ hchain
  have hload : load_parameters path
      (SavedFile.h5 ((enumFrom 0 (specTraversal s.vars false T "")).map
        (mkH5Entry s.vars s.bufs))) none
      { s with root := updateNode s.root s.cur (fun _ => []) } =
      .ok proto'
        { s with
          root := updateNode (updateNode s.root s.cur (fun _ => [])) s.cur
            (fun _ => mirrorN s.vars.length T),
          vars := s.vars ++ newVars s.bufs.length
            ((specTraversal s.vars false T "").map (mkRec s.vars s.bufs)),
          bufs := s.bufs ++
            ((specTraversal s.vars false T "").map (mkRec s.vars s.bufs)).map
              (fun r => r.data) } := by
    simp only [load_parameters, hext, Option.getD_none, if_pos]
    rw [hkeys, hsort, ← hkeys]
    exact hloop
  refine ⟨_, ?_, observe_mirror s T hT hwfT hvidsT⟩
  simp only [roundTrip, hsave, clear_parameters]
  rw [hload]

/-- Claim C4: for every parameter set (any well-formed state), `save_parameters`
followed by `clear_parameters` followed by `load_parameters` of the same file
restores a parameter set with the same '/'-joined paths, the same shapes, the
same data values and the same `need_grad` flags as before the save, for both
supported formats: under the flat `.protobuf` codec and under the hierarchical
`.h5` container codec the round trip succeeds and the observable parameter
mapping afterwards equals the one before. -/
theorem claim_C4 (s : PState) (pathPb pathH5 : String)
    (hpb : splitextExt pathPb = ".protobuf") (hh5 : splitextExt pathH5 = ".h5")
    (hwf : wfSt s = true) :
    (∃ s2, roundTrip pathPb s = some s2 ∧ observe s2 = observe s) ∧
    (∃ s2, roundTrip pathH5 s = some s2 ∧ observe s2 = observe s) :=
  ⟨roundTrip_pb_observe pathPb s hpb hwf, roundTrip_h5_observe pathH5 s hh5 hwf⟩

/-- Witness for claim C4 at a concrete two-scope state holding one
`need_grad=true` and one `need_grad=false` parameter, saved to a `.protobuf`
path and to an `.h5` path. -/
theorem claim_C4_witness :
    splitextExt ("net.protobuf") = ".protobuf" ∧
    splitextExt ("net.h5") = ".h5" ∧
    wfSt ⟨[("w", .par 0), ("sc", .sub [("b", .par 1)])], [],
      [⟨[2], true, 0⟩, ⟨[1], false, 1⟩], [[5, 7], [3]]⟩ = true ∧
    ((∃ s2, roundTrip ("net.protobuf")
        ⟨[("w", .par 0), ("sc", .sub [("b", .par 1)])], [],
          [⟨[2], true, 0⟩, ⟨[1], false, 1⟩], [[5, 7], [3]]⟩ = some s2 ∧
        observe s2 = observe
          ⟨[("w", .par 0), ("sc", .sub [("b", .par 1)])], [],
            [⟨[2], true, 0⟩, ⟨[1], false, 1⟩], [[5, 7], [3]]⟩) ∧
     (∃ s2, roundTrip ("net.h5")
        ⟨[("w", .par 0), ("sc", .sub [("b", .par 1)])], [],
          [⟨[2], true, 0⟩, ⟨[1], false, 1⟩], [[5, 7], [3]]⟩ = some s2 ∧
        observe s2 = observe
          ⟨[("w", .par 0), ("sc", .sub [("b", .par 1)])], [],
            [⟨[2], true, 0⟩, ⟨[1], false, 1⟩], [[5, 7], [3]]⟩)) :=
  ⟨by decide, by decide, by decide,
    claim_C4
      ⟨[("w", .par 0), ("sc", .sub [("b", .par 1)])], [],
        [⟨[2], true, 0⟩, ⟨[1], false, 1⟩], [[5, 7], [3]]⟩
      ("net.protobuf") ("net.h5") (by decide) (by decide) (by decide)⟩

end NnablaParam

